import Mathlib

/-!
Verification of the bash-to-zsh configuration migrator
(`scripts/merge-bashrc-to-zshrc.py`, class `ConfigMerger`).

The Python code is shallowly embedded over `List Char`: each method of
`ConfigMerger` becomes an executable Lean function, and the regular
expressions used by the script are unfolded into explicit deterministic
matchers that reproduce the behaviour of `re.match`/`re.sub` on the
concrete patterns appearing in the source.
-/

set_option autoImplicit false

namespace MergeScript

/-- ASCII whitespace as matched by Python `str.strip()` / regex `\s`
on the ASCII inputs handled by the script. -/
def isSpc (c : Char) : Bool :=
  c = ' ' ∨ c = '\t' ∨ c = '\n' ∨ c = '\r' ∨ c = '\x0b' ∨ c = '\x0c'

/-- Regex word character `\w` (ASCII). -/
def isWordC (c : Char) : Bool :=
  c.isAlphanum ∨ c = '_'

/-- Python `str.lstrip()`. -/
def lstripL (l : List Char) : List Char := l.dropWhile isSpc

/-- Python `str.strip()`. -/
def stripL (l : List Char) : List Char :=
  ((l.dropWhile isSpc).reverse.dropWhile isSpc).reverse

/-- `len(line) - len(line.lstrip())`: the number of leading whitespace
characters (how the script measures indentation). -/
def wsLen (l : List Char) : Nat := (l.takeWhile isSpc).length

/-- The indentation the script re-applies: `' ' * indent`. -/
def spaces (n : Nat) : List Char := List.replicate n ' '

/-- The single-quote character (written via its code point). -/
def squote : Char := Char.ofNat 39

/-- Python `file.readlines()`: split text into lines, each keeping its
trailing newline; a last line without a newline is kept as is. -/
def linesOf : List Char → List (List Char)
  | [] => []
  | c :: rest =>
    if c = '\n' then ['\n'] :: linesOf rest
    else
      match linesOf rest with
      | [] => [[c]]
      | ln :: lns => (c :: ln) :: lns

/-- Python `str.split('\n')`: split at every newline, keeping empty pieces. -/
def splitNL : List Char → List (List Char)
  | [] => [[]]
  | c :: rest =>
    if c = '\n' then [] :: splitNL rest
    else
      match splitNL rest with
      | [] => [[c]]
      | x :: xs => (c :: x) :: xs

/-- Position of the first occurrence of `pat` in `l`, if any. -/
def findSub (pat : List Char) : List Char → Option Nat
  | [] => if pat = [] then some 0 else none
  | c :: rest =>
    if pat.isPrefixOf (c :: rest) then some 0
    else (findSub pat rest).map (· + 1)

/-- Python's substring test `pat in l`. -/
def containsSub (pat l : List Char) : Bool := (findSub pat l).isSome

/-- Fuel-driven worker for Python `str.split()` (split on whitespace
runs, discarding empties). -/
def splitWsF : Nat → List Char → List (List Char)
  | 0, _ => []
  | f + 1, l =>
    let l1 := l.dropWhile isSpc
    match l1 with
    | [] => []
    | _ :: _ =>
      (l1.takeWhile (fun c => ¬ isSpc c)) :: splitWsF f (l1.dropWhile (fun c => ¬ isSpc c))

/-- Python `str.split()` with no argument. -/
def splitWs (l : List Char) : List (List Char) := splitWsF l.length l

/-- Python `sep.join(pieces)` for a one-character separator. -/
def joinSep (sep : Char) : List (List Char) → List Char
  | [] => []
  | [x] => x
  | x :: y :: xs => x ++ sep :: joinSep sep (y :: xs)

/-- Matcher for the function-opener regex
`^\s*function\s+\w+|^\s*\w+\s*\(\s*\)` (line 196 of the script). -/
def matchesOpener (l : List Char) : Bool :=
  let r := l.dropWhile isSpc
  (("function".data.isPrefixOf r) &&
    (match r.drop 8 with
     | [] => false
     | c :: _ =>
       isSpc c &&
         (match (r.drop 8).dropWhile isSpc with
          | [] => false
          | d :: _ => isWordC d)))
  ||
  (let w := r.takeWhile isWordC
   (!w.isEmpty) &&
     (match (r.drop w.length).dropWhile isSpc with
      | '(' :: r2 =>
        (match r2.dropWhile isSpc with
         | ')' :: _ => true
         | _ => false)
      | _ => false))

/-- Matcher for the conditional-sourcing-guard regex
`^\s*if\s+\[\s*-f\s+.*\]` (line 169 of the script).  The trailing
`.*\]` demands a `]` later on the line, not beyond a newline; `\s+`
may consume newlines, so the search starts after the maximal
whitespace run. -/
def ifGuard (l : List Char) : Bool :=
  let r := l.dropWhile isSpc
  ("if".data.isPrefixOf r) &&
    (match r.drop 2 with
     | [] => false
     | c :: _ =>
       isSpc c &&
         (match (r.drop 2).dropWhile isSpc with
          | '[' :: r2 =>
            (match r2.dropWhile isSpc with
             | '-' :: 'f' :: r3 =>
               (match r3 with
                | [] => false
                | d :: _ =>
                  isSpc d &&
                    ((r3.dropWhile isSpc).takeWhile (· ≠ '\n')).contains ']')
             | _ => false)
          | _ => false))

/-- Matcher for `^\s*fi\s*$` (line 170): the line is `fi` surrounded by
whitespace only. -/
def fiLine (l : List Char) : Bool := stripL l = ['f', 'i']

/-- `ConfigMerger.is_significant_line` (lines 153-177).  The first two
boilerplate patterns (`^\s*$`, `^\s*#`) coincide with the empty-line
and pure-comment checks that precede them. -/
def is_significant_line (l : List Char) : Bool :=
  let n := stripL l
  n ≠ [] ∧ (n.head? ≠ some '#') ∧ ¬ ifGuard l ∧ ¬ fiLine l

/-- Does the stripped line end in a backslash (`stripped.endswith('\\')`,
line 214)? -/
def endsBS (l : List Char) : Bool := (stripL l).getLast? = some '\\'

/-- One iteration of the loop of `ConfigMerger.extract_config_entries`
(lines 192-224): given the state (`in_function`, `current_block`) and
the next physical line, return the blocks emitted by this iteration
(none or one) and the new state.  Note the opener test comes *first*,
even inside a function block, restarting `current_block`. -/
def stepSt (inF : Bool) (cur : List (List Char)) (l : List Char) :
    List (List Char) × Bool × List (List Char) :=
  if matchesOpener l then ([], true, [l])
  else if inF then
    if stripL l = ['\x7d'] then ([(cur ++ [l]).flatten], false, [])
    else ([], true, cur ++ [l])
  else if ¬ is_significant_line l then ([], false, cur)
  else if endsBS l then ([], false, cur ++ [l])
  else ([(cur ++ [l]).flatten], false, [])

/-- The whole loop of `ConfigMerger.extract_config_entries`: iterate
`stepSt` over the physical lines, accumulating emitted blocks.  The
pending `current_block` of the final state is dropped by the Python
code when the loop ends. -/
def goSt (inF : Bool) (cur : List (List Char)) :
    List (List Char) → List (List Char) × Bool × List (List Char)
  | [] => ([], inF, cur)
  | l :: rest =>
    let s := stepSt inF cur l
    let r := goSt s.2.1 s.2.2 rest
    (s.1 ++ r.1, r.2)

/-- `ConfigMerger.extract_config_entries` on file *content* (the
file-missing case is handled at the call sites, which pass the file as
`Option`). -/
def extract_config_entries (content : List Char) : List (List Char) :=
  (goSt false [] (linesOf content)).1

/-- `ConfigMerger.normalize_line` (lines 34-41): strip the whole entry,
then, when a `#` occurs and the stripped text does not start with `#`,
keep only the (re-stripped) part before the first `#`. -/
def normalize_line (l : List Char) : List Char :=
  let n := stripL l
  if '#' ∈ n ∧ n.head? ≠ some '#' then stripL (n.takeWhile (· ≠ '#')) else n

/-- `ConfigMerger.find_new_entries` (lines 232-243), with the two
extracted entry sequences as inputs: keep the source entries whose
normalized key is non-empty and not among the destination keys. -/
def find_new_entries (bashEntries zshEntries : List (List Char)) :
    List (List Char) :=
  bashEntries.filter
    (fun e => normalize_line e ≠ [] ∧ normalize_line e ∉ zshEntries.map normalize_line)

/-- The `shopt_to_setopt` lookup table (lines 73-80), with
`dict.get(opt, opt)` fallback (line 84). -/
def shoptTable (o : List Char) : List Char :=
  if o = "histappend".data then "append_history".data
  else if o = "cdspell".data then "correct".data
  else if o = "nocaseglob".data then "no_case_glob".data
  else if o = "extglob".data then "extended_glob".data
  else if o = "dotglob".data then "glob_dots".data
  else if o = "nullglob".data then "null_glob".data
  else o

/-- Largest index `i` of `l` whose character is not a newline. -/
def lastNonNL (l : List Char) : Option Nat :=
  ((List.range l.length).filter (fun i => l.get? i ≠ some '\n')).getLast?

/-- Matcher for a trailing `\s+(.+)` at the start of `r`: at least one
whitespace character, then the greedy capture of `.+` (which cannot
cross a newline).  When everything after the whitespace run is empty,
the regex engine backtracks inside the run, so the capture may consist
of whitespace. -/
def matchWsPlusRest (r : List Char) : Option (List Char) :=
  match r with
  | [] => none
  | c :: _ =>
    if ¬ isSpc c then none
    else
      let w := (r.takeWhile isSpc).length
      match r.drop w with
      | [] =>
        (match lastNonNL (r.drop 1) with
         | none => none
         | some i => some ((r.drop (1 + i)).takeWhile (· ≠ '\n')))
      | d :: rest => some ((d :: rest).takeWhile (· ≠ '\n'))

/-- Matcher for `^\s*shopt\s+(-[su])\s+(.+)` (line 67); returns the
flag (`true` for `-s`) and the captured options string. -/
def shoptMatch (l : List Char) : Option (Bool × List Char) :=
  let r := l.dropWhile isSpc
  if "shopt".data.isPrefixOf r then
    match r.drop 5 with
    | [] => none
    | c :: _ =>
      if ¬ isSpc c then none
      else
        match (r.drop 5).dropWhile isSpc with
        | '-' :: f :: rest =>
          if f = 's' ∨ f = 'u' then
            (matchWsPlusRest rest).map (fun opts => (f = 's', opts))
          else none
        | _ => none
  else none

/-- Matcher for `^\s*PROMPT_COMMAND=[\'"](.*)[\'"]` (line 96); returns
the greedy capture, i.e. everything up to the *last* quote character
on the line. -/
def promptMatch (l : List Char) : Option (List Char) :=
  let r := l.dropWhile isSpc
  if "PROMPT_COMMAND=".data.isPrefixOf r then
    match r.drop 15 with
    | q :: r2 =>
      if q = squote ∨ q = '"' then
        let seg := r2.takeWhile (· ≠ '\n')
        match ((List.range seg.length).filter
            (fun i => seg.get? i = some squote ∨ seg.get? i = some '"')).getLast? with
        | none => none
        | some j => some (seg.take j)
      else none
    | [] => none
  else none

/-- Can `.*` starting after `complete\s+` reach position `p` of `r1`
(`\s+` first consumes a maximal whitespace run, `.` cannot cross a
newline)? -/
def wsReach (r1 : List Char) (p : Nat) : Bool :=
  match r1 with
  | [] => false
  | c :: _ =>
    isSpc c &&
      (let pre := r1.take p
       let w := (pre.takeWhile isSpc).length
       decide (1 ≤ p) && !((pre.drop w).contains '\n'))

/-- Matcher for `\s+(\S+)\s+(\S+)` at the start of `r2`. -/
def twoToks (r2 : List Char) : Option (List Char × List Char) :=
  match r2 with
  | [] => none
  | c :: _ =>
    if ¬ isSpc c then none
    else
      let a := r2.dropWhile isSpc
      let f := a.takeWhile (fun c => ¬ isSpc c)
      if f = [] then none
      else
        match a.drop f.length with
        | [] => none
        | d :: _ =>
          if ¬ isSpc d then none
          else
            let b := (a.drop f.length).dropWhile isSpc
            let g := b.takeWhile (fun c => ¬ isSpc c)
            if g = [] then none else some (f, g)

/-- Matcher for `^\s*complete\s+.*-F\s+(\S+)\s+(\S+)` (line 105).  The
greedy `.*` selects the **last** position of `-F` from which the rest
of the pattern succeeds. -/
def completeMatch (l : List Char) : Option (List Char × List Char) :=
  let r := l.dropWhile isSpc
  if "complete".data.isPrefixOf r then
    let r1 := r.drop 8
    (((List.range (r1.length + 1)).filter
        (fun p =>
          wsReach r1 p && "-F".data.isPrefixOf (r1.drop p) &&
            (twoToks (r1.drop (p + 2))).isSome)).getLast?).bind
      (fun p => twoToks (r1.drop (p + 2)))
  else none

/-- One `re.sub` pass: scan left to right; where the matcher fires it
returns the remainder after the match, which is replaced by `R`.
Matches are non-overlapping and the matcher always consumes at least
one character, so the scan needs at most `length` steps of fuel. -/
def substF (m : List Char → Option (List Char)) (R : List Char) :
    Nat → List Char → List Char
  | 0, l => l
  | f + 1, l =>
    match l with
    | [] => []
    | c :: rest =>
      match m l with
      | some r => R ++ substF m R f r
      | none => c :: substF m R f rest

/-- `re.sub` over the whole string. -/
def substAll (m : List Char → Option (List Char)) (R : List Char)
    (l : List Char) : List Char :=
  substF m R l.length l

/-- Matcher for `\$\{\s*VAR\s*\}` at the head of the string; returns the
remainder after the match. -/
def bracedAt (var : List Char) (l : List Char) : Option (List Char) :=
  match l with
  | '$' :: '\x7b' :: r =>
    let r1 := r.dropWhile isSpc
    if var.isPrefixOf r1 then
      match (r1.drop var.length).dropWhile isSpc with
      | '\x7d' :: rest => some rest
      | _ => none
    else none
  | _ => none

/-- Matcher for `\$VAR\b` at the head of the string; returns the
remainder after the match. -/
def bareAt (var : List Char) (l : List Char) : Option (List Char) :=
  match l with
  | '$' :: r =>
    if var.isPrefixOf r then
      match r.drop var.length with
      | [] => some []
      | c :: rest => if isWordC c then none else some (c :: rest)
    else none
  | _ => none

/-- One (bash variable, zsh replacement) rule (lines 113-133): first
every braced occurrence is replaced (re-wrapped in `${...}` unless the
replacement itself starts with `$`), then every bare occurrence is
replaced by the raw replacement text. -/
def substVarPair (var repl l : List Char) : List Char :=
  let bracedR := if repl.head? = some '$' then repl
                 else '$' :: '\x7b' :: (repl ++ ['\x7d'])
  substAll (bareAt var) repl (substAll (bracedAt var) bracedR l)

/-- The four replacement rules, applied in the dictionary's insertion
order (lines 114-119). -/
def substVars (l : List Char) : List Char :=
  substVarPair "BASH_REMATCH".data "match".data
    (substVarPair "BASHPID".data "$$".data
      (substVarPair "BASH_SOURCE".data "$\x7b(%):-%x\x7d".data
        (substVarPair "BASH_VERSION".data "ZSH_VERSION".data l)))

/-- The bash-only-builtin fallback test (lines 136-147): the *stripped*
line starts with `shopt`, `complete` or `compgen` followed by a
whitespace character.  (The two `continue` guards inside the loop are
dead code: a line consumed by the `shopt` or `complete` rewrite never
reaches this point.) -/
def bashOnly (stripped : List Char) : Bool :=
  ["shopt".data, "complete".data, "compgen".data].any
    (fun b =>
      b.isPrefixOf stripped &&
        (match stripped.drop b.length with
         | c :: _ => isSpc c
         | [] => false))

/-- The per-line body of `ConfigMerger.transform_to_zsh` (lines 56-149):
returns the list of output lines the input line contributes. -/
def transformLine (line : List Char) : List (List Char) :=
  let stripped := stripL line
  if stripped = [] then [line]
  else
    match shoptMatch line with
    | some (isS, options) =>
      (splitWs options).map
        (fun o =>
          spaces (wsLen line) ++
            (if isS then "setopt ".data else "unsetopt ".data) ++ shoptTable o)
    | none =>
      match promptMatch line with
      | some cmd =>
        [spaces (wsLen line) ++ "precmd() \x7b ".data ++ cmd ++ " \x7d".data]
      | none =>
        match completeMatch line with
        | some (f, c) =>
          [spaces (wsLen line) ++ "compdef ".data ++ f ++ [' '] ++ c]
        | none =>
          if bashOnly stripped then
            [spaces (wsLen line) ++ "# [bash-only] ".data ++ stripped]
          else [substVars line]

/-- `ConfigMerger.transform_to_zsh` (lines 43-151): split the entry on
newlines, transform line by line, join with newlines. -/
def transform_to_zsh (entry : List Char) : List Char :=
  joinSep '\n' (((splitNL entry).map transformLine).flatten)

/-- The start marker `# --- Merged from .bashrc ---` (line 31). -/
def markerS : List Char := "# --- Merged from .bashrc ---".data

/-- The end marker `# --- End of .bashrc merge ---` (line 32). -/
def markerE : List Char := "# --- End of .bashrc merge ---".data

/-- Newline-termination applied to each transformed entry before it is
written (lines 287-289). -/
def ensureNL (t : List Char) : List Char :=
  if t.getLast? = some '\n' then t else t ++ ['\n']

/-- The text appended to the destination by a writing merge
(lines 284-291): a blank separator, the start marker line, each
transformed entry newline-terminated, and the end marker line. -/
def appendedBlock (trans : List (List Char)) : List Char :=
  '\n' :: (markerS ++ '\n' :: ((trans.map ensureNL).flatten ++ markerE ++ ['\n']))

/-- Destination content after the appending write of `merge_configs`. -/
def mergedContent (z : List Char) (trans : List (List Char)) : List Char :=
  z ++ appendedBlock trans

/-- Result of one `merge_configs` run over the modelled file system:
the returned triple plus the externally observable effects (final
destination content, whether a backup copy was made). -/
structure MergeOut where
  count : Nat
  originals : List (List Char)
  transformed : List (List Char)
  zshAfter : Option (List Char)
  backupMade : Bool
  deriving DecidableEq, Repr

/-- `ConfigMerger.merge_configs` (lines 252-293) over a file system
holding the two files as `Option` contents (`none` = absent).  `none`
as the overall result models the `FileNotFoundError` raised when the
source file is missing (line 260); nothing is touched in that case. -/
def merge_configs (bash zsh : Option (List Char)) (dryRun : Bool) :
    Option MergeOut :=
  match bash with
  | none => none
  | some b =>
    let zsh1 : Option (List Char) :=
      if zsh = none ∧ ¬ dryRun then some [] else zsh
    let zContent : List Char := zsh.getD []
    let newE := find_new_entries (extract_config_entries b)
      (extract_config_entries zContent)
    if newE = [] then some ⟨0, [], [], zsh1, false⟩
    else
      let trans := newE.map transform_to_zsh
      if dryRun then some ⟨newE.length, newE, trans, zsh1, false⟩
      else
        some ⟨newE.length, newE, trans,
          some (mergedContent (zsh1.getD []) trans), true⟩

/-- The non-greedy global deletion
`re.sub(start + '.*?' + end + '\n?', '', content, flags=re.DOTALL)`
(lines 315-316): repeatedly find the leftmost start marker, the first
end marker after it, delete through the end marker and one following
newline, and continue scanning after the deleted span. -/
def removeSpansF : Nat → List Char → List Char
  | 0, c => c
  | f + 1, c =>
    match findSub markerS c with
    | none => c
    | some i =>
      let after := c.drop (i + markerS.length)
      match findSub markerE after with
      | none => c
      | some j =>
        let rest0 := after.drop (j + markerE.length)
        let rest := if rest0.head? = some '\n' then rest0.drop 1 else rest0
        c.take i ++ removeSpansF f rest

/-- The marker-span deletion applied to a whole content string. -/
def removeSpans (c : List Char) : List Char := removeSpansF c.length c

/-- `ConfigMerger.remove_merged_section` (lines 295-321) over the
modelled destination file: returns (result, content after, backup
made). -/
def remove_merged_section (zsh : Option (List Char)) (dryRun : Bool) :
    Bool × Option (List Char) × Bool :=
  match zsh with
  | none => (false, none, false)
  | some c =>
    if ¬ containsSub markerS c then (false, some c, false)
    else if dryRun then (true, some c, false)
    else (true, some (removeSpans c), true)

/-- A destination content holding two complete marker-delimited spans:
free text `a`, a span with inner text `m1`, free text `b`, a span with
inner text `m2`, trailing text `t` (each span's end marker followed by
a newline, as `merge_configs` writes them). -/
def twoSpanContent (a m1 b m2 t : List Char) : List Char :=
  a ++ (markerS ++ (m1 ++ (markerE ++ '\n' ::
    (b ++ (markerS ++ (m2 ++ (markerE ++ '\n' :: t)))))))

/-- Worker for the write trace: contents of the destination after the
marker-line write, after each entry write and after the end-marker
write (lines 284-291). -/
def traceAux (acc : List Char) : List (List Char) → List (List Char)
  | [] => [acc, acc ++ (markerE ++ ['\n'])]
  | t :: ts => acc :: traceAux (acc ++ ensureNL t) ts

/-- All destination contents observable during the appending write of
`merge_configs`: the old content, then the content after each
successive `f.write` call. -/
def writeTrace (z : List Char) (trans : List (List Char)) :
    List (List Char) :=
  z :: traceAux (z ++ '\n' :: (markerS ++ ['\n'])) trans

/-! ### Basic lemmas about the string helpers -/

theorem mem_of_mem_stripL {c : Char} {l : List Char} (h : c ∈ stripL l) :
    c ∈ l := by
  unfold stripL at h
  have h1 := (List.dropWhile_sublist (l := (l.dropWhile isSpc).reverse) (p := isSpc)).mem
    (List.mem_reverse.mp h)
  exact (List.dropWhile_sublist (p := isSpc)).mem (List.mem_reverse.mp h1)

theorem stripL_nil_all {l : List Char} (h : stripL l = []) :
    ∀ c ∈ l, isSpc c = true := by
  intro c hc
  unfold stripL at h
  rw [List.reverse_eq_nil_iff, List.dropWhile_eq_nil_iff] at h
  by_contra hs
  have hd : c ∈ l.dropWhile isSpc := by
    have := List.takeWhile_append_dropWhile (p := isSpc) (l := l)
    rw [← this] at hc
    rcases List.mem_append.mp hc with h1 | h1
    · exact absurd (List.mem_takeWhile_imp h1) hs
    · exact h1
  exact hs (h c (List.mem_reverse.mpr hd))

theorem stripL_ne_nil_of_mem {c : Char} {l : List Char}
    (hc : c ∈ l) (hs : isSpc c = false) : stripL l ≠ [] := by
  intro h
  rw [stripL_nil_all h c hc] at hs
  simp at hs

theorem dropWhile_append_all {a r : List Char}
    (h : ∀ c ∈ a, isSpc c = true) :
    (a ++ r).dropWhile isSpc = r.dropWhile isSpc := by
  induction a with
  | nil => rfl
  | cons c a ih =>
    simp only [List.cons_append, List.dropWhile_cons,
      h c (List.mem_cons_self c a), if_true]
    exact ih (fun x hx => h x (List.mem_cons_of_mem c hx))

theorem dropWhile_cons_neg {c : Char} {r : List Char} (h : isSpc c = false) :
    (c :: r).dropWhile isSpc = c :: r := by
  simp [List.dropWhile_cons, h]

theorem takeWhile_append_stop {a : List Char} {d : Char} {r : List Char}
    (h : ∀ c ∈ a, isSpc c = true) (hd : isSpc d = false) :
    (a ++ d :: r).takeWhile isSpc = a := by
  induction a with
  | nil => simp [List.takeWhile_cons, hd]
  | cons c a ih =>
    simp only [List.cons_append, List.takeWhile_cons,
      h c (List.mem_cons_self c a), if_true]
    rw [ih (fun x hx => h x (List.mem_cons_of_mem c hx))]

theorem wsLen_append {a : List Char} {d : Char} {r : List Char}
    (h : ∀ c ∈ a, isSpc c = true) (hd : isSpc d = false) :
    wsLen (a ++ d :: r) = a.length := by
  unfold wsLen
  rw [takeWhile_append_stop h hd]

theorem takeWhile_ne_nl_all {l : List Char} (h : ∀ c ∈ l, c ≠ '\n') :
    l.takeWhile (· ≠ '\n') = l := by
  induction l with
  | nil => rfl
  | cons c r ih =>
    simp only [List.takeWhile_cons]
    rw [if_pos (by simpa using h c (List.mem_cons_self c r))]
    rw [ih (fun x hx => h x (List.mem_cons_of_mem c hx))]

theorem linesOf_ne_nil {l : List Char} (h : l ≠ []) : linesOf l ≠ [] := by
  match l with
  | [] => exact absurd rfl h
  | c :: rest =>
    unfold linesOf
    by_cases hc : c = '\n'
    · simp [hc]
    · simp only [hc, if_false]
      cases linesOf rest <;> simp

theorem linesOf_cons_nl (x : List Char) :
    linesOf ('\n' :: x) = ['\n'] :: linesOf x := by
  simp [linesOf]

theorem linesOf_cons_ne {c : Char} (x : List Char) (hc : c ≠ '\n') :
    linesOf (c :: x) =
      match linesOf x with
      | [] => [[c]]
      | ln :: lns => (c :: ln) :: lns := by
  simp [linesOf, hc]

theorem linesOf_append {a : List Char} (b : List Char)
    (h : a = [] ∨ a.getLast? = some '\n') :
    linesOf (a ++ b) = linesOf a ++ linesOf b := by
  induction a with
  | nil => simp [show linesOf ([] : List Char) = [] from rfl]
  | cons c a ih =>
    rcases h with h | h
    · exact absurd h (List.cons_ne_nil c a)
    cases ha : a with
    | nil =>
      subst ha
      simp only [List.getLast?_singleton, Option.some.injEq] at h
      subst h
      by_cases hb : b = []
      · simp [hb, show linesOf ([] : List Char) = [] from rfl]
      · rw [List.singleton_append, linesOf_cons_nl, linesOf_cons_nl]
        simp [linesOf]
    | cons d a' =>
      have hlast : a.getLast? = some '\n' := by
        rw [ha] at h ⊢
        rwa [List.getLast?_cons_cons] at h
      have hne : linesOf a ≠ [] := by
        rw [ha]; exact linesOf_ne_nil (List.cons_ne_nil d a')
      rw [← ha]
      obtain ⟨ln, lns, hln⟩ : ∃ ln lns, linesOf a = ln :: lns := by
        cases h' : linesOf a with
        | nil => exact absurd h' hne
        | cons ln lns => exact ⟨ln, lns, rfl⟩
      by_cases hc : c = '\n'
      · subst hc
        rw [List.cons_append, linesOf_cons_nl, linesOf_cons_nl,
          ih (Or.inr hlast)]
        simp
      · rw [List.cons_append, linesOf_cons_ne (a ++ b) hc,
          linesOf_cons_ne a hc, ih (Or.inr hlast), hln]
        simp

theorem linesOf_single {t : List Char} (h : ∀ c ∈ t, c ≠ '\n') :
    linesOf (t ++ ['\n']) = [t ++ ['\n']] := by
  induction t with
  | nil => simp [linesOf]
  | cons c t ih =>
    have hc : c ≠ '\n' := h c (List.mem_cons_self c t)
    rw [List.cons_append, linesOf_cons_ne (t ++ ['\n']) hc,
      ih (fun x hx => h x (List.mem_cons_of_mem c hx))]

theorem splitNL_single {l : List Char} (h : ∀ c ∈ l, c ≠ '\n') :
    splitNL l = [l] := by
  induction l with
  | nil => rfl
  | cons c t ih =>
    have hc : c ≠ '\n' := h c (List.mem_cons_self c t)
    simp only [splitNL, hc, if_false]
    rw [ih (fun x hx => h x (List.mem_cons_of_mem c hx))]

/-! ### Lemmas about substring search and marker-span removal -/

theorem findSub_isSome_iff {pat l : List Char} :
    (findSub pat l).isSome = true ↔ pat <:+: l := by
  induction l with
  | nil =>
    simp only [findSub]
    by_cases hp : pat = []
    · simp [hp]
    · simp only [hp, if_false, List.infix_nil]
      simp [hp]
  | cons c rest ih =>
    by_cases hp : pat.isPrefixOf (c :: rest) = true
    · have hstep : findSub pat (c :: rest) = some 0 := by simp [findSub, hp]
      rw [hstep]
      simp only [Option.isSome_some, true_iff]
      exact (List.isPrefixOf_iff_prefix.mp hp).isInfix
    · have hstep : findSub pat (c :: rest) = (findSub pat rest).map (· + 1) := by
        simp [findSub, hp]
      rw [hstep, List.infix_cons_iff]
      cases h : findSub pat rest with
      | none =>
        rw [h] at ih
        simp only [Option.map_none', Option.isSome_none] at ih ⊢
        simp only [Bool.false_eq_true, false_iff] at ih ⊢
        rintro (hh | hh)
        · exact hp (List.isPrefixOf_iff_prefix.mpr hh)
        · exact ih hh
      | some v =>
        rw [h] at ih
        simp only [Option.map_some', Option.isSome_some, true_iff] at ih ⊢
        exact Or.inr ih

theorem containsSub_iff {pat l : List Char} :
    containsSub pat l = true ↔ pat <:+: l :=
  findSub_isSome_iff

theorem findSub_prefix {pat l : List Char} (h : pat.isPrefixOf l = true)
    (hne : pat ≠ []) : findSub pat l = some 0 := by
  cases l with
  | nil =>
    rw [List.isPrefixOf_iff_prefix, List.prefix_nil] at h
    exact absurd h hne
  | cons c rest => simp [findSub, h]

theorem findSub_append_hash {pat a r : List Char}
    (hp : pat.head? = some '#') (ha : '#' ∉ a) :
    findSub pat (a ++ r) = (findSub pat r).map (· + a.length) := by
  induction a with
  | nil =>
    cases h : findSub pat r <;> simp [h]
  | cons c a ih =>
    have hc : c ≠ '#' := fun h => ha (h ▸ List.mem_cons_self c a)
    have hnp : ¬ (pat.isPrefixOf (c :: (a ++ r)) = true) := by
      rw [List.isPrefixOf_iff_prefix]
      intro hpre
      cases pat with
      | nil => simp at hp
      | cons p ps =>
        simp only [List.head?_cons, Option.some.injEq] at hp
        subst hp
        rcases hpre with ⟨t, ht⟩
        simp only [List.cons_append, List.cons.injEq] at ht
        exact hc ht.1.symm
    have hstep : findSub pat (c :: (a ++ r))
        = (findSub pat (a ++ r)).map (· + 1) := by
      simp only [findSub, if_neg hnp]
    rw [List.cons_append, hstep, ih (fun h => ha (List.mem_cons_of_mem c h))]
    cases h : findSub pat r
    · simp
    · simp only [Option.map_some', Option.some.injEq, List.length_cons]
      omega

theorem removeSpansF_nil (f : Nat) : removeSpansF f [] = [] := by
  cases f with
  | zero => rfl
  | succ g =>
    have h : findSub markerS [] = none := by decide
    simp only [removeSpansF, h]

theorem removeSpansF_fuel {c : List Char} {f1 f2 : Nat}
    (h1 : c.length ≤ f1) (h2 : c.length ≤ f2) :
    removeSpansF f1 c = removeSpansF f2 c := by
  induction f1 generalizing f2 c with
  | zero =>
    have hc : c = [] := by
      cases c with
      | nil => rfl
      | cons x xs => simp at h1
    subst hc
    rw [removeSpansF_nil, removeSpansF_nil]
  | succ g1 ih =>
    cases f2 with
    | zero =>
      have hc : c = [] := by
        cases c with
        | nil => rfl
        | cons x xs => simp at h2
      subst hc
      rw [removeSpansF_nil, removeSpansF_nil]
    | succ g2 =>
      cases hi : findSub markerS c with
      | none => simp only [removeSpansF, hi]
      | some i =>
        cases hj : findSub markerE (c.drop (i + markerS.length)) with
        | none => simp only [removeSpansF, hi, hj]
        | some j =>
          simp only [removeSpansF, hi, hj]
          have hcne : c ≠ [] := by
            intro hc
            subst hc
            have : findSub markerS [] = none := by decide
            rw [this] at hi
            exact Option.noConfusion hi
          have hlen : 1 ≤ c.length := by
            cases c with
            | nil => exact absurd rfl hcne
            | cons x xs => simp
          have hS : 1 ≤ markerS.length := by decide
          have hr0 : ((c.drop (i + markerS.length)).drop
              (j + markerE.length)).length ≤ c.length - 1 := by
            rw [List.length_drop, List.length_drop]
            omega
          have hrest : (if ((c.drop (i + markerS.length)).drop
                (j + markerE.length)).head? = some '\n' then
                ((c.drop (i + markerS.length)).drop (j + markerE.length)).drop 1
              else
                (c.drop (i + markerS.length)).drop (j + markerE.length)).length
              ≤ c.length - 1 := by
            split
            · rw [List.length_drop]; omega
            · exact hr0
          congr 1
          exact ih (by omega) (by omega)

theorem removeSpans_noStart {c : List Char}
    (h : findSub markerS c = none) : removeSpans c = c := by
  cases c with
  | nil => rfl
  | cons x xs =>
    show removeSpansF (x :: xs).length (x :: xs) = x :: xs
    rw [List.length_cons]
    simp only [removeSpansF, h]

theorem removeSpans_noEnd {c : List Char} {i : Nat}
    (hi : findSub markerS c = some i)
    (hj : findSub markerE (c.drop (i + markerS.length)) = none) :
    removeSpans c = c := by
  cases c with
  | nil => rfl
  | cons x xs =>
    show removeSpansF (x :: xs).length (x :: xs) = x :: xs
    rw [List.length_cons]
    simp only [removeSpansF, hi, hj]

theorem removeSpans_step {c : List Char} {i j : Nat}
    (hi : findSub markerS c = some i)
    (hj : findSub markerE (c.drop (i + markerS.length)) = some j) :
    removeSpans c =
      c.take i ++
        removeSpans
          (if ((c.drop (i + markerS.length)).drop
                (j + markerE.length)).head? = some '\n' then
            ((c.drop (i + markerS.length)).drop (j + markerE.length)).drop 1
          else (c.drop (i + markerS.length)).drop (j + markerE.length)) := by
  have hcne : c ≠ [] := by
    intro hc
    subst hc
    have : findSub markerS [] = none := by decide
    rw [this] at hi
    exact Option.noConfusion hi
  cases c with
  | nil => exact absurd rfl hcne
  | cons x xs =>
    show removeSpansF (x :: xs).length (x :: xs) = _
    rw [List.length_cons]
    simp only [removeSpansF, hi, hj]
    congr 1
    apply removeSpansF_fuel
    · have hS : 1 ≤ markerS.length := by decide
      have hxc : (x :: xs).length = xs.length + 1 := by simp
      split
      · rw [List.length_drop, List.length_drop, List.length_drop]
        omega
      · rw [List.length_drop, List.length_drop]
        omega
    · exact Nat.le_refl _

theorem findSub_none_of_no_hash {pat l : List Char}
    (hp : pat.head? = some '#') (h : '#' ∉ l) : findSub pat l = none := by
  have h2 := findSub_append_hash (r := ([] : List Char)) hp h
  rw [List.append_nil] at h2
  rw [h2]
  have hne : pat ≠ [] := by
    intro hh
    rw [hh] at hp
    exact Option.noConfusion hp
  simp [findSub, hne]

theorem removeSpans_span (a m r : List Char) (ha : '#' ∉ a) (hm : '#' ∉ m) :
    removeSpans (a ++ (markerS ++ (m ++ (markerE ++ '\n' :: r))))
      = a ++ removeSpans r := by
  have hpS : markerS.head? = some '#' := by decide
  have hpE : markerE.head? = some '#' := by decide
  have hSne : markerS ≠ [] := by decide
  have hEne : markerE ≠ [] := by decide
  have hi : findSub markerS (a ++ (markerS ++ (m ++ (markerE ++ '\n' :: r))))
      = some a.length := by
    rw [findSub_append_hash hpS ha,
      findSub_prefix (List.isPrefixOf_iff_prefix.mpr (List.prefix_append _ _)) hSne]
    simp
  have hdrop1 : (a ++ (markerS ++ (m ++ (markerE ++ '\n' :: r)))).drop
      (a.length + markerS.length) = m ++ (markerE ++ '\n' :: r) := by
    rw [show a ++ (markerS ++ (m ++ (markerE ++ '\n' :: r)))
        = (a ++ markerS) ++ (m ++ (markerE ++ '\n' :: r)) by
          simp [List.append_assoc],
      show a.length + markerS.length = (a ++ markerS).length by simp,
      List.drop_left]
  have hj : findSub markerE (m ++ (markerE ++ '\n' :: r)) = some m.length := by
    rw [findSub_append_hash hpE hm,
      findSub_prefix (List.isPrefixOf_iff_prefix.mpr (List.prefix_append _ _)) hEne]
    simp
  have hdrop2 : (m ++ (markerE ++ '\n' :: r)).drop (m.length + markerE.length)
      = '\n' :: r := by
    rw [show m ++ (markerE ++ '\n' :: r) = (m ++ markerE) ++ '\n' :: r by
        simp [List.append_assoc],
      show m.length + markerE.length = (m ++ markerE).length by simp,
      List.drop_left]
  have h2 : findSub markerE
      ((a ++ (markerS ++ (m ++ (markerE ++ '\n' :: r)))).drop
        (a.length + markerS.length)) = some m.length := by
    rw [hdrop1]; exact hj
  rw [removeSpans_step hi h2, hdrop1, hdrop2]
  simp [List.take_left]

theorem removeSpans_twoSpan {a m1 b m2 t : List Char}
    (ha : '#' ∉ a) (hm1 : '#' ∉ m1) (hb : '#' ∉ b) (hm2 : '#' ∉ m2)
    (ht : '#' ∉ t) :
    removeSpans (twoSpanContent a m1 b m2 t) = a ++ (b ++ t) := by
  have hpS : markerS.head? = some '#' := by decide
  rw [twoSpanContent, removeSpans_span a m1 _ ha hm1,
    removeSpans_span b m2 t hb hm2,
    removeSpans_noStart (findSub_none_of_no_hash hpS ht)]

theorem containsSub_twoSpan (a m1 b m2 t : List Char) (ha : '#' ∉ a) :
    containsSub markerS (twoSpanContent a m1 b m2 t) = true := by
  have hpS : markerS.head? = some '#' := by decide
  have hSne : markerS ≠ [] := by decide
  unfold containsSub twoSpanContent
  rw [findSub_append_hash hpS ha,
    findSub_prefix (List.isPrefixOf_iff_prefix.mpr (List.prefix_append _ _)) hSne]
  simp

/-! ### Claim C5 -/

/-- C5 counterexample: on a destination holding **two** marker-delimited
spans (`A` inside the first, `B` inside the second, `mid` between them),
`remove_merged_section` deletes **both** spans — the result `mid` no
longer contains the start marker at all — whereas the claim says only
the first span is deleted and the later span is left unchanged. -/
theorem c5_counterexample :
    remove_merged_section
        (some (twoSpanContent "".data "\nA\n".data "mid".data "\nB\n".data "".data))
        false
      = (true, some "mid".data, true)
    ∧ containsSub markerS "mid".data = false := by
  constructor
  · have h := @removeSpans_twoSpan
      "".data "\nA\n".data "mid".data "\nB\n".data "".data
      (by decide) (by decide) (by decide) (by decide) (by decide)
    simp only [remove_merged_section]
    rw [if_neg (by
      rw [containsSub_twoSpan "".data "\nA\n".data "mid".data "\nB\n".data
        "".data (by decide)]
      simp)]
    rw [if_neg (by simp), h]
    rfl
  · decide

/-- C5 (amended): `removeMergedSection` returns `false` when the file
does not exist or its content does not contain the start marker;
otherwise it returns `true` and (outside dry-run) backs up and rewrites
the file after deleting **every** leftmost-first, shortest span from a
start marker through the next end marker (plus one following newline),
not only the first such span; text outside the deleted spans is kept.
Shown here on a content with two spans whose free parts carry no `#`. -/
theorem c5_amended_remove_all_spans (dry : Bool) (a m1 b m2 t : List Char)
    (ha : '#' ∉ a) (hm1 : '#' ∉ m1) (hb : '#' ∉ b) (hm2 : '#' ∉ m2)
    (ht : '#' ∉ t) :
    remove_merged_section none dry = (false, none, false)
    ∧ (∀ c, containsSub markerS c = false →
        remove_merged_section (some c) dry = (false, some c, false))
    ∧ remove_merged_section (some (twoSpanContent a m1 b m2 t)) true
        = (true, some (twoSpanContent a m1 b m2 t), false)
    ∧ remove_merged_section (some (twoSpanContent a m1 b m2 t)) false
        = (true, some (a ++ (b ++ t)), true) := by
  refine ⟨rfl, ?_, ?_, ?_⟩
  · intro c hc
    simp only [remove_merged_section]
    rw [if_pos (by rw [hc]; simp)]
  · simp only [remove_merged_section]
    rw [if_neg (by rw [containsSub_twoSpan a m1 b m2 t ha]; simp)]
    simp
  · simp only [remove_merged_section]
    rw [if_neg (by rw [containsSub_twoSpan a m1 b m2 t ha]; simp)]
    rw [if_neg (by simp)]
    rw [removeSpans_twoSpan ha hm1 hb hm2 ht]

/-- Witness for `c5_amended_remove_all_spans` at concrete
hash-free parts. -/
theorem c5_witness :
    ('#' ∉ ("pre\n".data : List Char))
    ∧ remove_merged_section
        (some (twoSpanContent "pre\n".data "\nx\n".data "mid\n".data
          "\ny\n".data "post".data)) false
      = (true, some ("pre\n".data ++ ("mid\n".data ++ "post".data)), true) :=
  ⟨by decide,
    (c5_amended_remove_all_spans false "pre\n".data "\nx\n".data "mid\n".data
      "\ny\n".data "post".data (by decide) (by decide) (by decide) (by decide)
      (by decide)).2.2.2⟩

/-! ### Claim C10 -/

/-- C10: when the destination exists and its content contains the start
marker but no end marker, `remove_merged_section` returns `true`; in
non-dry-run mode it makes a backup and rewrites the file, yet the
content is left exactly unchanged (the deletion regex cannot match). -/
theorem c10_no_end_marker_noop (c : List Char) (dry : Bool)
    (h1 : containsSub markerS c = true)
    (h2 : containsSub markerE c = false) :
    remove_merged_section (some c) dry
      = (true, some c, if dry then false else true) := by
  obtain ⟨i, hi⟩ := Option.isSome_iff_exists.mp h1
  have hj : findSub markerE (c.drop (i + markerS.length)) = none := by
    cases hj : findSub markerE (c.drop (i + markerS.length)) with
    | none => rfl
    | some j =>
      exfalso
      have hinf : markerE <:+: c :=
        (findSub_isSome_iff.mp (by rw [hj]; rfl)).trans
          (List.drop_suffix _ _).isInfix
      rw [containsSub_iff.mpr hinf] at h2
      exact Bool.noConfusion h2
  simp only [remove_merged_section]
  rw [if_neg (by rw [h1]; simp)]
  cases dry with
  | true => simp
  | false =>
    rw [if_neg (by simp)]
    rw [removeSpans_noEnd hi hj]
    simp

/-- Witness for `c10_no_end_marker_noop`: the content consisting of the
start marker alone. -/
theorem c10_witness :
    containsSub markerS markerS = true
    ∧ containsSub markerE markerS = false
    ∧ remove_merged_section (some markerS) false = (true, some markerS, true) :=
  ⟨by decide, by decide, by
    simpa using c10_no_end_marker_noop markerS false (by decide) (by decide)⟩

/-! ### Claim C8 -/

theorem traceAux_mem : ∀ (ts : List (List Char)) (acc s : List Char),
    s ∈ traceAux acc ts →
    acc <+: s ∧ s <+: acc ++ ((ts.map ensureNL).flatten ++ (markerE ++ ['\n'])) := by
  intro ts
  induction ts with
  | nil =>
    intro acc s hs
    simp only [traceAux, List.mem_cons, List.not_mem_nil, or_false] at hs
    rcases hs with h | h
    · subst h
      exact ⟨List.prefix_rfl, List.prefix_append _ _⟩
    · subst h
      refine ⟨List.prefix_append _ _, ?_⟩
      simp only [List.map_nil, List.flatten_nil, List.nil_append]
      exact List.prefix_rfl
  | cons t ts ih =>
    intro acc s hs
    simp only [traceAux, List.mem_cons] at hs
    rcases hs with h | h
    · subst h
      exact ⟨List.prefix_rfl, List.prefix_append _ _⟩
    · have hmem := ih (acc ++ ensureNL t) s h
      refine ⟨(List.prefix_append _ _).trans hmem.1, ?_⟩
      have h2 := hmem.2
      simpa [List.append_assoc] using h2

theorem traceAux_ne_nil (ts : List (List Char)) (acc : List Char) :
    traceAux acc ts ≠ [] := by
  cases ts <;> simp [traceAux]

theorem traceAux_getLast : ∀ (ts : List (List Char)) (acc : List Char),
    (traceAux acc ts).getLast?
      = some (acc ++ ((ts.map ensureNL).flatten ++ (markerE ++ ['\n']))) := by
  intro ts
  induction ts with
  | nil => intro acc; simp [traceAux]
  | cons t ts ih =>
    intro acc
    show (acc :: traceAux (acc ++ ensureNL t) ts).getLast? = _
    cases h : traceAux (acc ++ ensureNL t) ts with
    | nil => exact absurd h (traceAux_ne_nil ts (acc ++ ensureNL t))
    | cons x xs =>
      rw [List.getLast?_cons_cons, ← h, ih (acc ++ ensureNL t)]
      simp [List.append_assoc]

/-- C8 (amended): the appending merge writes directly to the
destination in several sequential `f.write` calls (separator plus start
marker, each entry, end marker) — there is no temporary file and no
atomic rename.  Every observable intermediate content extends the old
content as a prefix and is itself a prefix of the final content, whose
value is exactly `mergedContent`; so an interruption can expose a
partially appended state, but never truncates or loses the
pre-existing content. -/
theorem c8_amended_append_write_monotone (z : List Char)
    (trans : List (List Char)) (s : List Char)
    (hs : s ∈ writeTrace z trans) :
    (z <+: s ∧ s <+: mergedContent z trans)
    ∧ (writeTrace z trans).getLast? = some (mergedContent z trans)
    ∧ (writeTrace z trans).head? = some z := by
  have hfinal : (z ++ '\n' :: (markerS ++ ['\n']))
      ++ ((trans.map ensureNL).flatten ++ (markerE ++ ['\n']))
      = mergedContent z trans := by
    simp [mergedContent, appendedBlock, List.append_assoc]
  refine ⟨?_, ?_, rfl⟩
  · simp only [writeTrace, List.mem_cons] at hs
    rcases hs with h | h
    · subst h
      refine ⟨List.prefix_rfl, ?_⟩
      rw [← hfinal]
      exact (List.prefix_append _ _).trans (List.prefix_append _ _)
    · have hmem := traceAux_mem trans (z ++ '\n' :: (markerS ++ ['\n'])) s h
      rw [hfinal] at hmem
      exact ⟨(List.prefix_append _ _).trans hmem.1, hmem.2⟩
  · show (z :: traceAux (z ++ '\n' :: (markerS ++ ['\n'])) trans).getLast? = _
    cases h : traceAux (z ++ '\n' :: (markerS ++ ['\n'])) trans with
    | nil => exact absurd h (traceAux_ne_nil _ _)
    | cons x xs =>
      rw [List.getLast?_cons_cons, ← h, traceAux_getLast, hfinal]

/-- C8 counterexample: merging one entry `x` into an empty destination,
the content observable right after the first write (separator plus
start-marker line) is neither the old content (empty) nor the complete
new content — the writes are in-place appends, not an atomic replace. -/
theorem c8_counterexample :
    ('\n' :: (markerS ++ ['\n'])) ∈ writeTrace [] ["x\n".data]
    ∧ ('\n' :: (markerS ++ ['\n'])) ≠ ([] : List Char)
    ∧ ('\n' :: (markerS ++ ['\n'])) ≠ mergedContent [] ["x\n".data] := by
  refine ⟨by decide, by decide, by decide⟩

/-- Witness for `c8_amended_append_write_monotone` at the same concrete
trace element. -/
theorem c8_witness :
    ('\n' :: (markerS ++ ['\n'])) ∈ writeTrace [] ["x\n".data]
    ∧ (([] : List Char) <+: ('\n' :: (markerS ++ ['\n']))
        ∧ ('\n' :: (markerS ++ ['\n'])) <+: mergedContent [] ["x\n".data]) :=
  ⟨by decide,
    (c8_amended_append_write_monotone [] ["x\n".data]
      ('\n' :: (markerS ++ ['\n'])) (by decide)).1⟩

/-! ### Extractor state-machine lemmas (claims C4, C9, C1) -/

theorem goSt_append (a : List (List Char)) :
    ∀ (b : List (List Char)) (inF : Bool) (cur : List (List Char)),
    goSt inF cur (a ++ b)
      = ((goSt inF cur a).1
          ++ (goSt (goSt inF cur a).2.1 (goSt inF cur a).2.2 b).1,
         (goSt (goSt inF cur a).2.1 (goSt inF cur a).2.2 b).2) := by
  induction a with
  | nil => intro b inF cur; simp [goSt]
  | cons l a ih =>
    intro b inF cur
    simp only [List.cons_append, goSt]
    rw [show (a.append b) = a ++ b from rfl, ih]
    simp [List.append_assoc]

theorem stepSt_opener {l : List Char} (cur : List (List Char)) (inF : Bool)
    (h : matchesOpener l = true) : stepSt inF cur l = ([], true, [l]) := by
  simp [stepSt, h]

theorem stepSt_inF_noclose {l : List Char} (cur : List (List Char))
    (h1 : matchesOpener l = false) (h2 : stripL l ≠ ['\x7d']) :
    stepSt true cur l = ([], true, cur ++ [l]) := by
  simp [stepSt, h1, h2]

theorem stepSt_inF_close {l : List Char} (cur : List (List Char))
    (h1 : matchesOpener l = false) (h2 : stripL l = ['\x7d']) :
    stepSt true cur l = ([(cur ++ [l]).flatten], false, []) := by
  simp [stepSt, h1, h2]

theorem stepSt_skip {l : List Char} (cur : List (List Char))
    (h1 : matchesOpener l = false) (h2 : is_significant_line l = false) :
    stepSt false cur l = ([], false, cur) := by
  simp [stepSt, h1, h2]

theorem stepSt_cont {l : List Char} (cur : List (List Char))
    (h1 : matchesOpener l = false) (h2 : is_significant_line l = true)
    (h3 : endsBS l = true) :
    stepSt false cur l = ([], false, cur ++ [l]) := by
  simp [stepSt, h1, h2, h3]

theorem stepSt_emit {l : List Char} (cur : List (List Char))
    (h1 : matchesOpener l = false) (h2 : is_significant_line l = true)
    (h3 : endsBS l = false) :
    stepSt false cur l = ([(cur ++ [l]).flatten], false, []) := by
  simp [stepSt, h1, h2, h3]

theorem goSt_inF_noclose (ls : List (List Char)) :
    ∀ cur, (∀ l ∈ ls, stripL l ≠ ['\x7d']) → (goSt true cur ls).1 = [] := by
  induction ls with
  | nil => intro cur _; rfl
  | cons l ls ih =>
    intro cur h
    simp only [goSt]
    by_cases ho : matchesOpener l = true
    · rw [stepSt_opener cur true ho]
      simpa using ih [l] (fun x hx => h x (List.mem_cons_of_mem l hx))
    · rw [stepSt_inF_noclose cur (Bool.not_eq_true _ ▸ ho)
        (h l (List.mem_cons_self l ls))]
      simpa using ih (cur ++ [l]) (fun x hx => h x (List.mem_cons_of_mem l hx))

theorem goSt_cont_lines (ls : List (List Char)) :
    ∀ cur, (∀ l ∈ ls, matchesOpener l = false ∧ is_significant_line l = true
      ∧ endsBS l = true) →
    goSt false cur ls = ([], false, cur ++ ls) := by
  induction ls with
  | nil => intro cur _; simp [goSt]
  | cons l ls ih =>
    intro cur h
    obtain ⟨h1, h2, h3⟩ := h l (List.mem_cons_self l ls)
    simp only [goSt]
    rw [stepSt_cont cur h1 h2 h3]
    rw [ih (cur ++ [l]) (fun x hx => h x (List.mem_cons_of_mem l hx))]
    simp

/-- A line whose stripped content is `}` has an all-whitespace prefix
followed by `}`, so it cannot match the function-opener regex. -/
theorem opener_false_of_strip_close {l : List Char}
    (h : stripL l = ['\x7d']) : matchesOpener l = false := by
  obtain ⟨ws, hd⟩ : ∃ ws, l.dropWhile isSpc = '\x7d' :: ws := by
    have e2 : l.dropWhile isSpc
        = stripL l ++ ((l.dropWhile isSpc).reverse.takeWhile isSpc).reverse := by
      conv_lhs => rw [← List.reverse_reverse (l.dropWhile isSpc),
        ← List.takeWhile_append_dropWhile (p := isSpc)
          (l := (l.dropWhile isSpc).reverse),
        List.reverse_append]
      rfl
    rw [h] at e2
    exact ⟨((l.dropWhile isSpc).reverse.takeWhile isSpc).reverse, e2⟩
  simp only [matchesOpener, hd]
  have h2 : "function".data.isPrefixOf ('\x7d' :: ws) = false := by
    rw [show "function".data = 'f' :: "unction".data from rfl]
    simp only [List.isPrefixOf]
    rw [show (('f' : Char) == '\x7d') = false from by decide]
    simp
  have h3 : ('\x7d' :: ws).takeWhile isWordC = [] := by
    rw [List.takeWhile_cons, if_neg (by decide)]
  rw [h2, h3]
  simp

theorem goSt_close_block (pre : List (List Char)) :
    ∀ (cur : List (List Char)) (close : List Char) (post : List (List Char)),
    (∀ l ∈ pre, matchesOpener l = false ∧ stripL l ≠ ['\x7d']) →
    stripL close = ['\x7d'] →
    goSt true cur (pre ++ close :: post)
      = ((cur ++ (pre ++ [close])).flatten :: (goSt false [] post).1,
         (goSt false [] post).2) := by
  induction pre with
  | nil =>
    intro cur close post _ hclose
    simp only [List.nil_append, goSt]
    rw [stepSt_inF_close cur (opener_false_of_strip_close hclose) hclose]
    simp
  | cons p pre ih =>
    intro cur close post h hclose
    obtain ⟨h1, h2⟩ := h p (List.mem_cons_self p pre)
    have hstep : goSt true cur ((p :: pre) ++ close :: post)
        = goSt true (cur ++ [p]) (pre ++ close :: post) := by
      simp only [List.cons_append, goSt]
      rw [stepSt_inF_noclose cur h1 h2]
      simp
    rw [hstep, ih (cur ++ [p]) close post
      (fun x hx => h x (List.mem_cons_of_mem p hx)) hclose]
    simp [List.append_assoc]

/-! ### Claim C4 -/

/-- C4 counterexample: a file ending inside an unterminated function
block (`f() {` then one body line, no closing `}`) and a file of
backslash-continued lines produce **no** entries at all — the pending
accumulated lines are discarded at end-of-file, not emitted as a
trailing entry as the claim states. -/
theorem c4_counterexample :
    extract_config_entries "f() \x7b\n  echo hi\n".data = []
    ∧ extract_config_entries "a \\\nb \\\n".data = []
    ∧ ([] : List (List Char)) ≠ ["f() \x7b\n  echo hi\n".data] := by
  refine ⟨by decide, by decide, by decide⟩

/-- C4 (amended): for a source file whose lines split as a prefix that
leaves the extractor in a clean state followed by either (an opener
line and lines never stripping to `}`) or (significant
backslash-continued non-opener lines through end-of-file), extraction
raises nothing but **discards** the pending lines: the output is
exactly the prefix's entries, and nothing of the pending block is
emitted. -/
theorem c4_amended_pending_block_discarded
    (pre ls : List (List Char))
    (hclean : (goSt false [] pre).2 = (false, []))
    (hcase :
      (∃ L ls', ls = L :: ls' ∧ matchesOpener L = true
        ∧ ∀ l ∈ ls', stripL l ≠ ['\x7d'])
      ∨ (∀ l ∈ ls, matchesOpener l = false ∧ is_significant_line l = true
          ∧ endsBS l = true)) :
    (goSt false [] (pre ++ ls)).1 = (goSt false [] pre).1 := by
  rw [goSt_append pre ls false [], hclean]
  have htail : (goSt false [] ls).1 = [] := by
    rcases hcase with ⟨L, ls', hls, hL, hno⟩ | hcont
    · subst hls
      simp only [goSt]
      rw [stepSt_opener [] false hL]
      simpa using goSt_inF_noclose ls' [L] hno
    · rw [goSt_cont_lines ls [] hcont]
  rw [htail, List.append_nil]

/-- Witness for `c4_amended_pending_block_discarded`: empty prefix, one
unterminated function block. -/
theorem c4_witness :
    (goSt false [] ([] : List (List Char))).2 = (false, [])
    ∧ (goSt false []
        ([] ++ ["f() \x7b\n".data, "  echo hi\n".data])).1
      = (goSt false [] ([] : List (List Char))).1 :=
  ⟨rfl,
    c4_amended_pending_block_discarded []
      ["f() \x7b\n".data, "  echo hi\n".data] rfl
      (Or.inl ⟨"f() \x7b\n".data, ["  echo hi\n".data], rfl, by decide,
        by decide⟩)⟩

/-! ### Claim C9 -/

/-- C9 counterexample: the claim says every physical line after an
opener is absorbed into the same single entry until a `}` line.  But a
subsequent line matching the opener pattern *restarts* the block: for
`f() { echo hi }` followed by `g() {` and `}`, the emitted entry is
only `g() {\n}\n` — the first opener line is discarded, not absorbed. -/
theorem c9_counterexample :
    extract_config_entries "f() \x7b echo hi \x7d\ng() \x7b\n\x7d\n".data
      = ["g() \x7b\n\x7d\n".data]
    ∧ ["g() \x7b\n\x7d\n".data]
      ≠ ["f() \x7b echo hi \x7d\ng() \x7b\n\x7d\n".data] := by
  refine ⟨by decide, by decide⟩

/-- C9 (amended): a line matching the function-opener pattern — even a
complete one-line definition — puts the extractor in function-block
mode.  Every subsequent line that does **not** itself match the opener
pattern is absorbed verbatim until the first line stripping to `}`,
which closes the single emitted entry; a subsequent opener line instead
restarts the block, discarding what was accumulated; and if no `}` line
ever follows, the opener and all absorbed lines are absent from the
output. -/
theorem c9_amended_function_block_mode
    (L close L' : List Char) (pre post rest : List (List Char))
    (hL : matchesOpener L = true) :
    ((∀ l ∈ pre, matchesOpener l = false ∧ stripL l ≠ ['\x7d']) →
      stripL close = ['\x7d'] →
      (goSt false [] (L :: (pre ++ close :: post))).1
        = (L :: (pre ++ [close])).flatten :: (goSt false [] post).1)
    ∧ ((∀ l ∈ rest, stripL l ≠ ['\x7d']) →
        (goSt false [] (L :: rest)).1 = [])
    ∧ (matchesOpener L' = true →
        goSt false [] (L :: L' :: rest) = goSt false [] (L' :: rest)) := by
  refine ⟨?_, ?_, ?_⟩
  · intro hpre hclose
    simp only [goSt]
    rw [stepSt_opener [] false hL]
    rw [goSt_close_block pre [L] close post hpre hclose]
    simp
  · intro hno
    simp only [goSt]
    rw [stepSt_opener [] false hL]
    simpa using goSt_inF_noclose rest [L] hno
  · intro hL'
    simp only [goSt]
    rw [stepSt_opener [] false hL, stepSt_opener [L] true hL',
      stepSt_opener [] false hL']
    simp

/-- Witness for `c9_amended_function_block_mode` at a concrete one-line
complete definition followed by a body and a closing line. -/
theorem c9_witness :
    matchesOpener "f() \x7b echo hi \x7d\n".data = true
    ∧ (goSt false []
        ("f() \x7b echo hi \x7d\n".data
          :: (["  echo more\n".data] ++ ["\x7d\n".data] ++ []))).1
      = ("f() \x7b echo hi \x7d\n".data
          :: (["  echo more\n".data] ++ ["\x7d\n".data])).flatten
        :: (goSt false [] ([] : List (List Char))).1 :=
  ⟨by decide,
    by
      have h := (c9_amended_function_block_mode "f() \x7b echo hi \x7d\n".data
        "\x7d\n".data "x".data ["  echo more\n".data] [] [] (by decide)).1
        (by decide) (by decide)
      simpa using h⟩

/-! ### Token/substring lemmas (claim C7) -/

theorem takeWhile_all_p {p : Char → Bool} {l : List Char}
    (h : ∀ c ∈ l, p c = true) : l.takeWhile p = l := by
  induction l with
  | nil => rfl
  | cons c r ih =>
    rw [List.takeWhile_cons, if_pos (h c (List.mem_cons_self c r)),
      ih (fun x hx => h x (List.mem_cons_of_mem c hx))]

theorem takeWhile_append_stop_p {p : Char → Bool} {a : List Char} {d : Char}
    {r : List Char} (h : ∀ c ∈ a, p c = true) (hd : p d = false) :
    (a ++ d :: r).takeWhile p = a := by
  induction a with
  | nil => simp [List.takeWhile_cons, hd]
  | cons c a ih =>
    rw [List.cons_append, List.takeWhile_cons,
      if_pos (h c (List.mem_cons_self c a)),
      ih (fun x hx => h x (List.mem_cons_of_mem c hx))]

theorem dropWhile_append_stop_p {p : Char → Bool} {a : List Char} {d : Char}
    {r : List Char} (h : ∀ c ∈ a, p c = true) (hd : p d = false) :
    (a ++ d :: r).dropWhile p = d :: r := by
  induction a with
  | nil => simp [List.dropWhile_cons, hd]
  | cons c a ih =>
    rw [List.cons_append, List.dropWhile_cons]
    simp only [h c (List.mem_cons_self c a), if_true]
    exact ih (fun x hx => h x (List.mem_cons_of_mem c hx))

theorem splitWsF_nil_input (f : Nat) : splitWsF f [] = [] := by
  cases f <;> rfl

theorem mem_joinSep {c sep : Char} :
    ∀ {L : List (List Char)}, c ∈ joinSep sep L → c = sep ∨ ∃ x ∈ L, c ∈ x := by
  intro L
  induction L with
  | nil => intro h; exact absurd h (List.not_mem_nil c)
  | cons x xs ih =>
    cases xs with
    | nil =>
      intro h
      exact Or.inr ⟨x, List.mem_cons_self x [], h⟩
    | cons y ys =>
      intro h
      rcases List.mem_append.mp h with h | h
      · exact Or.inr ⟨x, List.mem_cons_self x (y :: ys), h⟩
      · rcases List.mem_cons.mp h with h | h
        · exact Or.inl h
        · rcases ih h with h | ⟨z, hz, hcz⟩
          · exact Or.inl h
          · exact Or.inr ⟨z, List.mem_cons_of_mem x hz, hcz⟩

theorem splitWsF_step (g : Nat) (l : List Char) (c : Char) (cs : List Char)
    (hdw : l.dropWhile isSpc = c :: cs) :
    splitWsF (g + 1) l
      = (c :: cs).takeWhile (fun x => ¬ isSpc x)
        :: splitWsF g ((c :: cs).dropWhile (fun x => ¬ isSpc x)) := by
  simp only [splitWsF, hdw]

theorem splitWsF_join :
    ∀ (opts : List (List Char)) (f : Nat) (pre : List Char),
    (∀ c ∈ pre, isSpc c = true) →
    (∀ o ∈ opts, o ≠ [] ∧ ∀ c ∈ o, isSpc c = false) →
    (pre ++ joinSep ' ' opts).length ≤ f →
    splitWsF f (pre ++ joinSep ' ' opts) = opts := by
  intro opts
  induction opts with
  | nil =>
    intro f pre hpre _ hf
    simp only [joinSep, List.append_nil] at hf ⊢
    cases f with
    | zero =>
      have : pre = [] := by
        cases pre with
        | nil => rfl
        | cons c r => simp at hf
      rw [this, splitWsF_nil_input]
    | succ g =>
      simp only [splitWsF]
      rw [List.dropWhile_eq_nil_iff.mpr hpre]
  | cons o rest ih =>
    intro f pre hpre ho hf
    obtain ⟨hone, hoc⟩ := ho o (List.mem_cons_self o rest)
    obtain ⟨oc, o', hoeq⟩ : ∃ oc o', o = oc :: o' := by
      cases o with
      | nil => exact absurd rfl hone
      | cons oc o' => exact ⟨oc, o', rfl⟩
    subst hoeq
    have hocns : isSpc oc = false := hoc oc (List.mem_cons_self oc o')
    have honws : ∀ c ∈ oc :: o', (fun x => ¬ isSpc x : Char → Bool) c = true := by
      intro c hc
      simp [hoc c hc]
    cases rest with
    | nil =>
      have hJ : joinSep ' ' [oc :: o'] = oc :: o' := rfl
      rw [hJ]
      cases f with
      | zero =>
        exfalso
        simp [List.length_append] at hf
        rw [hJ] at hf
        exact List.cons_ne_nil _ _ hf.2
      | succ g =>
        have hdw2 : (pre ++ oc :: o').dropWhile isSpc = oc :: o' := by
          rw [dropWhile_append_all hpre, dropWhile_cons_neg hocns]
        rw [splitWsF_step g _ oc o' hdw2]
        rw [takeWhile_all_p honws,
          List.dropWhile_eq_nil_iff.mpr honws, splitWsF_nil_input]
    | cons y ys =>
      have hJ : joinSep ' ' ((oc :: o') :: y :: ys)
          = (oc :: o') ++ ' ' :: joinSep ' ' (y :: ys) := rfl
      rw [hJ]
      cases f with
      | zero =>
        exfalso
        simp [List.length_append] at hf
        rw [hJ] at hf
        simp at hf
      | succ g =>
        have hdw2 : (pre ++ ((oc :: o') ++ ' ' :: joinSep ' ' (y :: ys))
            ).dropWhile isSpc
            = oc :: (o' ++ ' ' :: joinSep ' ' (y :: ys)) := by
          rw [dropWhile_append_all hpre, List.cons_append,
            dropWhile_cons_neg hocns]
        rw [splitWsF_step g _ oc (o' ++ ' ' :: joinSep ' ' (y :: ys)) hdw2]
        rw [← List.cons_append]
        rw [takeWhile_append_stop_p (p := fun x => ¬ isSpc x) honws
          (by simp [isSpc])]
        rw [dropWhile_append_stop_p (p := fun x => ¬ isSpc x) honws
          (by simp [isSpc])]
        have hrec := ih g [' ']
          (by intro c hc; simp at hc; subst hc; decide)
          (fun x hx => ho x (List.mem_cons_of_mem _ hx))
          (by
            rw [hJ] at hf
            simp only [List.length_append, List.length_cons,
              List.singleton_append] at hf ⊢
            omega)
        rw [show (' ' :: joinSep ' ' (y :: ys))
          = [' '] ++ joinSep ' ' (y :: ys) from rfl]
        rw [hrec]

theorem infix_cons_elim {t : List Char} {c : Char} {l : List Char}
    (hc : c ∉ t) (h : t <:+: c :: l) : t <:+: l := by
  rcases List.infix_cons_iff.mp h with h | h
  · cases t with
    | nil => exact List.nil_infix
    | cons x t' =>
      rw [List.cons_prefix_cons] at h
      exact absurd (h.1 ▸ List.mem_cons_self x t') hc
  · exact h

theorem infix_sep {t : List Char} {c : Char} :
    ∀ {a b : List Char}, c ∉ t → t <:+: (a ++ c :: b) →
      t <:+: a ∨ t <:+: b := by
  intro a
  induction a with
  | nil =>
    intro b hc h
    simp only [List.nil_append] at h
    exact Or.inr (infix_cons_elim hc h)
  | cons d a' ih =>
    intro b hc h
    rcases List.infix_cons_iff.mp (by simpa using h) with h1 | h1
    · cases t with
      | nil => exact Or.inl List.nil_infix
      | cons x t' =>
        rw [List.cons_prefix_cons] at h1
        obtain ⟨hx, hpre⟩ := h1
        have hpa : a' <+: a' ++ c :: b := List.prefix_append _ _
        by_cases hlen : t'.length ≤ a'.length
        · have ht' : t' <+: a' :=
            List.prefix_of_prefix_length_le hpre hpa hlen
          refine Or.inl ?_
          exact (List.cons_prefix_cons.mpr ⟨hx, ht'⟩).isInfix
        · have hl2 : a'.length ≤ t'.length := le_of_not_le hlen
          have ha' : a' <+: t' :=
            List.prefix_of_prefix_length_le hpa hpre hl2
          obtain ⟨u, hu⟩ := ha'
          obtain ⟨s, hs⟩ := hpre
          rw [← hu, List.append_assoc] at hs
          have hus : u ++ s = c :: b := List.append_cancel_left hs
          cases u with
          | nil =>
            rw [← hu] at hlen
            simp at hlen
          | cons uc u' =>
            have huc : uc = c := by
              rw [List.cons_append, List.cons.injEq] at hus
              exact hus.1
            exfalso
            apply hc
            rw [← huc, ← hu]
            exact List.mem_cons_of_mem x
              (List.mem_append.mpr (Or.inr (List.mem_cons_self uc u')))
    · rcases ih hc h1 with h2 | h2
      · exact Or.inl (List.infix_cons h2)
      · exact Or.inr h2

theorem infix_drop_spaces {t l : List Char} {n : Nat} (h : ' ' ∉ t)
    (hi : t <:+: spaces n ++ l) : t <:+: l := by
  induction n with
  | zero => simpa using hi
  | succ m ih =>
    apply ih
    rw [spaces, List.replicate_succ, List.cons_append] at hi
    exact infix_cons_elim h hi

theorem not_infix_joinSep {t : List Char} {sep : Char} (hne : t ≠ [])
    (hsep : sep ∉ t) :
    ∀ {L : List (List Char)}, (∀ x ∈ L, ¬ t <:+: x) →
      ¬ t <:+: joinSep sep L := by
  intro L
  induction L with
  | nil =>
    intro _ h
    exact hne (List.infix_nil.mp h)
  | cons x xs ih =>
    cases xs with
    | nil =>
      intro hL h
      exact hL x (List.mem_cons_self x []) h
    | cons y ys =>
      intro hL h
      rcases infix_sep hsep h with h2 | h2
      · exact hL x (List.mem_cons_self x (y :: ys)) h2
      · exact ih (fun z hz => hL z (List.mem_cons_of_mem x hz)) h2

theorem splitWs_join (opts : List (List Char))
    (ho : ∀ o ∈ opts, o ≠ [] ∧ ∀ c ∈ o, isSpc c = false) :
    splitWs (joinSep ' ' opts) = opts := by
  have h := splitWsF_join opts (joinSep ' ' opts).length []
    (by intro c hc; exact absurd hc (List.not_mem_nil c)) ho
    (by simp)
  simpa using h

theorem joinSep_chars_no_nl {opts : List (List Char)}
    (ho : ∀ o ∈ opts, o ≠ [] ∧ ∀ c ∈ o, isSpc c = false) :
    ∀ c ∈ joinSep ' ' opts, c ≠ '\n' := by
  intro c hc
  rcases mem_joinSep hc with h | ⟨x, hx, hcx⟩
  · subst h; decide
  · intro hEq
    have h2 := (ho x hx).2 c hcx
    rw [hEq] at h2
    exact absurd h2 (by decide)

theorem matchWsPlusRest_space {oc : Char} {tl : List Char}
    (hoc : isSpc oc = false)
    (hnl : ∀ c ∈ oc :: tl, c ≠ '\n') :
    matchWsPlusRest (' ' :: oc :: tl) = some (oc :: tl) := by
  have hsp : isSpc ' ' = true := by decide
  have ht : ((' ' :: oc :: tl).takeWhile isSpc).length = 1 := by
    rw [List.takeWhile_cons, if_pos hsp, List.takeWhile_cons, if_neg (by simp [hoc])]
    rfl
  simp only [matchWsPlusRest, hsp, not_true, if_false, ht]
  rw [show List.drop 1 (' ' :: oc :: tl) = oc :: tl from rfl]
  show some ((oc :: tl).takeWhile (· ≠ '\n')) = some (oc :: tl)
  rw [takeWhile_ne_nl_all hnl]

theorem shoptMatch_mk (ind : List Char) (flag : Char)
    (oc : Char) (tl : List Char)
    (hind : ∀ c ∈ ind, isSpc c = true)
    (hflag : flag = 's' ∨ flag = 'u')
    (hoc : isSpc oc = false)
    (hnl : ∀ c ∈ oc :: tl, c ≠ '\n') :
    shoptMatch (ind ++ ('s' :: 'h' :: 'o' :: 'p' :: 't' :: ' ' :: '-'
        :: flag :: ' ' :: oc :: tl))
      = some (decide (flag = 's'), oc :: tl) := by
  have hr : (ind ++ ('s' :: 'h' :: 'o' :: 'p' :: 't' :: ' ' :: '-'
      :: flag :: ' ' :: oc :: tl)).dropWhile isSpc
      = 's' :: 'h' :: 'o' :: 'p' :: 't' :: ' ' :: '-' :: flag :: ' '
        :: oc :: tl := by
    rw [dropWhile_append_all hind, dropWhile_cons_neg (by decide)]
  have hpre : "shopt".data.isPrefixOf
      ('s' :: 'h' :: 'o' :: 'p' :: 't' :: ' ' :: '-' :: flag :: ' '
        :: oc :: tl) = true := by
    rw [show "shopt".data = ['s', 'h', 'o', 'p', 't'] from rfl]
    simp [List.isPrefixOf]
  have hdw : (' ' :: '-' :: flag :: ' ' :: oc :: tl).dropWhile isSpc
      = '-' :: flag :: ' ' :: oc :: tl := by
    rw [List.dropWhile_cons, if_pos (by decide), List.dropWhile_cons,
      if_neg (by decide)]
  simp only [shoptMatch, hr, hpre, if_true]
  rw [show ('s' :: 'h' :: 'o' :: 'p' :: 't' :: ' ' :: '-' :: flag :: ' '
      :: oc :: tl).drop 5 = ' ' :: '-' :: flag :: ' ' :: oc :: tl from rfl]
  simp only [hdw]
  rw [if_neg (by decide), if_pos hflag, matchWsPlusRest_space hoc hnl]
  rfl

/-! ### Claim C7 -/

/-- C7 counterexample: a tab-indented `shopt -s histappend` line.  The
script measures the indentation as a character *count* and re-applies
it as that many **spaces**, so the emitted `setopt` line starts with a
single space, not the original tab — the original line's indentation is
not inherited. -/
theorem c7_counterexample :
    transform_to_zsh "\tshopt -s histappend".data
      = " setopt append_history".data
    ∧ " setopt append_history".data ≠ "\tsetopt append_history".data := by
  refine ⟨by decide, by decide⟩

/-- C7 (amended): for a line consisting of whitespace indentation, the
word `shopt`, flag `-s` or `-u`, and a non-empty whitespace-separated
option list, the Transformer emits exactly one output line per listed
option — `setopt` (for `-s`) or `unsetopt` (for `-u`) followed by the
table-mapped option name, or the original name when unmapped.  Each
emitted line is indented by a run of **spaces** whose length equals the
number of leading whitespace characters of the original line (a tab is
not reproduced literally), and the output contains no `shopt` substring
provided no mapped option name itself contains one (the `shopt` command
word itself never survives). -/
theorem c7_amended_shopt_rewrite (ind : List Char) (isS : Bool)
    (opts : List (List Char))
    (hind : ∀ c ∈ ind, isSpc c = true ∧ c ≠ '\n')
    (hopts : opts ≠ [])
    (ho : ∀ o ∈ opts, o ≠ [] ∧ ∀ c ∈ o, isSpc c = false) :
    transform_to_zsh (ind ++ ('s' :: 'h' :: 'o' :: 'p' :: 't' :: ' ' :: '-'
        :: (if isS then 's' else 'u') :: ' ' :: joinSep ' ' opts))
      = joinSep '\n' (opts.map (fun o =>
          spaces ind.length
            ++ (if isS then "setopt ".data else "unsetopt ".data)
            ++ shoptTable o))
    ∧ ((∀ o ∈ opts, containsSub "shopt".data (shoptTable o) = false) →
        containsSub "shopt".data
          (transform_to_zsh (ind ++ ('s' :: 'h' :: 'o' :: 'p' :: 't' :: ' '
            :: '-' :: (if isS then 's' else 'u') :: ' '
            :: joinSep ' ' opts))) = false) := by
  obtain ⟨o1, rest, hop⟩ : ∃ o1 rest, opts = o1 :: rest := by
    cases opts with
    | nil => exact absurd rfl hopts
    | cons o1 rest => exact ⟨o1, rest, rfl⟩
  obtain ⟨oc, o', ho1⟩ : ∃ oc o', o1 = oc :: o' := by
    cases h1 : o1 with
    | nil =>
      exfalso
      exact (ho o1 (hop ▸ List.mem_cons_self o1 rest)).1 h1
    | cons oc o' => exact ⟨oc, o', rfl⟩
  obtain ⟨tl, hJ⟩ : ∃ tl, joinSep ' ' opts = oc :: tl := by
    rw [hop, ho1]
    cases rest with
    | nil => exact ⟨o', rfl⟩
    | cons y ys => exact ⟨o' ++ ' ' :: joinSep ' ' (y :: ys), rfl⟩
  have hoc : isSpc oc = false := by
    have := (ho o1 (hop ▸ List.mem_cons_self o1 rest)).2
    exact this oc (ho1 ▸ List.mem_cons_self oc o')
  have hnlJ : ∀ c ∈ joinSep ' ' opts, c ≠ '\n' := joinSep_chars_no_nl ho
  have hnl : ∀ c ∈ oc :: tl, c ≠ '\n' := by rw [← hJ]; exact hnlJ
  have hflag : (if isS then 's' else 'u') = 's'
      ∨ (if isS then 's' else 'u') = 'u' := by
    cases isS
    · exact Or.inr rfl
    · exact Or.inl rfl
  have hline_nl : ∀ c ∈ ind ++ ('s' :: 'h' :: 'o' :: 'p' :: 't' :: ' '
      :: '-' :: (if isS then 's' else 'u') :: ' ' :: joinSep ' ' opts),
      c ≠ '\n' := by
    intro c hc
    rcases List.mem_append.mp hc with h | h
    · exact (hind c h).2
    · simp only [List.mem_cons] at h
      rcases h with h | h | h | h | h | h | h | h | h | h
      all_goals first
      | (subst h; decide)
      | (subst h; cases isS <;> decide)
      | (exact hnlJ c h)
  have hmatch := shoptMatch_mk ind (if isS then 's' else 'u') oc tl
    (fun c hc => (hind c hc).1) hflag hoc hnl
  rw [← hJ] at hmatch
  have hdecide : decide ((if isS then 's' else 'u') = 's') = isS := by
    cases isS <;> decide
  have hstrip : stripL (ind ++ ('s' :: 'h' :: 'o' :: 'p' :: 't' :: ' '
      :: '-' :: (if isS then 's' else 'u') :: ' ' :: joinSep ' ' opts))
      ≠ [] := by
    apply stripL_ne_nil_of_mem (c := 's')
    · exact List.mem_append.mpr (Or.inr (List.mem_cons_self _ _))
    · decide
  have hws : wsLen (ind ++ ('s' :: 'h' :: 'o' :: 'p' :: 't' :: ' '
      :: '-' :: (if isS then 's' else 'u') :: ' ' :: joinSep ' ' opts))
      = ind.length :=
    wsLen_append (fun c hc => (hind c hc).1) (by decide)
  have hTL : transformLine (ind ++ ('s' :: 'h' :: 'o' :: 'p' :: 't' :: ' '
      :: '-' :: (if isS then 's' else 'u') :: ' ' :: joinSep ' ' opts))
      = opts.map (fun o =>
          spaces ind.length
            ++ (if isS then "setopt ".data else "unsetopt ".data)
            ++ shoptTable o) := by
    simp only [transformLine, hmatch, hws, hdecide, if_neg hstrip]
    rw [splitWs_join opts ho]
  have hmain : transform_to_zsh (ind ++ ('s' :: 'h' :: 'o' :: 'p' :: 't'
      :: ' ' :: '-' :: (if isS then 's' else 'u') :: ' '
      :: joinSep ' ' opts))
      = joinSep '\n' (opts.map (fun o =>
          spaces ind.length
            ++ (if isS then "setopt ".data else "unsetopt ".data)
            ++ shoptTable o)) := by
    unfold transform_to_zsh
    rw [splitNL_single hline_nl]
    simp only [List.map_cons, List.map_nil, List.flatten]
    rw [hTL, List.append_nil]
  refine ⟨hmain, ?_⟩
  intro hno
  rw [hmain]
  rw [← Bool.not_eq_true, containsSub_iff]
  apply not_infix_joinSep (by decide) (by decide)
  intro x hx
  obtain ⟨o, hmem, hxo⟩ := List.mem_map.mp hx
  subst hxo
  intro hinf
  rw [List.append_assoc] at hinf
  have h1 : "shopt".data <:+: ((if isS then "setopt ".data
      else "unsetopt ".data) ++ shoptTable o) :=
    infix_drop_spaces (by decide) hinf
  have h3 : ¬ "shopt".data <:+: shoptTable o := by
    rw [← containsSub_iff, hno o hmem]
    simp
  cases isS
  · rcases infix_sep (t := "shopt".data) (c := ' ')
        (a := "unsetopt".data) (b := shoptTable o) (by decide)
        (by exact h1) with h2 | h2
    · exact absurd (containsSub_iff.mpr h2) (by decide)
    · exact h3 h2
  · rcases infix_sep (t := "shopt".data) (c := ' ')
        (a := "setopt".data) (b := shoptTable o) (by decide)
        (by exact h1) with h2 | h2
    · exact absurd (containsSub_iff.mpr h2) (by decide)
    · exact h3 h2

/-- Witness for `c7_amended_shopt_rewrite`: tab indentation, `-s`, two
options, one mapped (`histappend`) and one unmapped. -/
theorem c7_witness :
    transform_to_zsh ("\t".data ++ ('s' :: 'h' :: 'o' :: 'p' :: 't' :: ' '
        :: '-' :: (if true then 's' else 'u') :: ' '
        :: joinSep ' ' ["histappend".data, "zz".data]))
      = joinSep '\n' (["histappend".data, "zz".data].map (fun o =>
          spaces ("\t".data).length
            ++ (if true then "setopt ".data else "unsetopt ".data)
            ++ shoptTable o)) :=
  (c7_amended_shopt_rewrite "\t".data true
    ["histappend".data, "zz".data] (by decide) (by decide) (by decide)).1

/-! ### Claim C1 -/

theorem linesOf_flatten_singles :
    ∀ {es : List (List Char)},
    (∀ e ∈ es, e.getLast? = some '\n' ∧ ∀ c ∈ e.dropLast, c ≠ '\n') →
    linesOf es.flatten = es := by
  intro es
  induction es with
  | nil => intro _; rfl
  | cons e es ih =>
    intro h
    obtain ⟨hlast, hbody⟩ := h e (List.mem_cons_self e es)
    have hsplit : e = e.dropLast ++ ['\n'] :=
      (List.dropLast_append_getLast? '\n' hlast).symm
    have hle : linesOf e = [e] := by
      conv_lhs => rw [hsplit]
      rw [linesOf_single hbody, ← hsplit]
    rw [List.flatten_cons, linesOf_append es.flatten (Or.inr hlast),
      ih (fun x hx => h x (List.mem_cons_of_mem e hx)), hle]
    rfl

theorem flatten_getLast_nl :
    ∀ {es : List (List Char)}, es ≠ [] →
    (∀ e ∈ es, e.getLast? = some '\n') →
    es.flatten.getLast? = some '\n' := by
  intro es
  induction es with
  | nil => intro h _; exact absurd rfl h
  | cons e es ih =>
    intro _ h
    cases hes : es with
    | nil =>
      subst hes
      rw [List.flatten_cons, List.flatten_nil, List.append_nil]
      exact h e (List.mem_cons_self e [])
    | cons f fs =>
      subst hes
      have hfne : f ≠ [] := by
        intro hf
        have h2 := h f (List.mem_cons_of_mem e (List.mem_cons_self f fs))
        rw [hf] at h2
        exact Option.noConfusion h2
      have hflne : (f :: fs).flatten ≠ [] := by
        rw [List.flatten_cons]
        exact List.append_ne_nil_of_left_ne_nil hfne _
      rw [List.flatten_cons, List.getLast?_append_of_ne_nil _ hflne]
      exact ih (List.cons_ne_nil f fs)
        (fun x hx => h x (List.mem_cons_of_mem e hx))

theorem goSt_singles :
    ∀ (es tl : List (List Char)),
    (∀ e ∈ es, matchesOpener e = false ∧ is_significant_line e = true
      ∧ endsBS e = false) →
    goSt false [] (es ++ tl)
      = (es ++ (goSt false [] tl).1, (goSt false [] tl).2) := by
  intro es
  induction es with
  | nil => intro tl _; simp [goSt]
  | cons e es ih =>
    intro tl h
    obtain ⟨h1, h2, h3⟩ := h e (List.mem_cons_self e es)
    have hstep : goSt false [] ((e :: es) ++ tl)
        = (e :: (goSt false [] (es ++ tl)).1, (goSt false [] (es ++ tl)).2) := by
      simp only [List.cons_append, goSt]
      rw [stepSt_emit [] h1 h2 h3]
      simp
    rw [hstep, ih tl (fun x hx => h x (List.mem_cons_of_mem e hx))]
    simp

theorem goSt_skip_cons {l : List Char} {ls : List (List Char)}
    (h1 : matchesOpener l = false) (h2 : is_significant_line l = false) :
    goSt false [] (l :: ls) = goSt false [] ls := by
  simp only [goSt]
  rw [stepSt_skip [] h1 h2]
  simp

/-- Decomposition of the appended block into newline-terminated chunks. -/
theorem appendedBlock_decomp (trans : List (List Char)) :
    appendedBlock trans
      = ['\n'] ++ ((markerS ++ ['\n'])
          ++ ((trans.map ensureNL).flatten ++ (markerE ++ ['\n']))) := by
  simp [appendedBlock, List.append_assoc]

/-- Extraction of a destination after one appending merge: the lines of
the appended block re-extract to exactly the appended entries when each
entry is a single significant newline-terminated non-opener
non-continuation line. -/
theorem extract_mergedContent (Z : List Char) (ents : List (List Char))
    (hZ : Z = [] ∨ Z.getLast? = some '\n')
    (hclean : (goSt false [] (linesOf Z)).2 = (false, []))
    (hln : ∀ e ∈ ents, e.getLast? = some '\n' ∧ ∀ c ∈ e.dropLast, c ≠ '\n')
    (hx : ∀ e ∈ ents, matchesOpener e = false
      ∧ is_significant_line e = true ∧ endsBS e = false)
    (hens : ents.map ensureNL = ents) :
    extract_config_entries (mergedContent Z ents)
      = extract_config_entries Z ++ ents := by
  have hflat : ents.flatten = [] ∨ ents.flatten.getLast? = some '\n' := by
    cases hne : ents with
    | nil => exact Or.inl rfl
    | cons f fs =>
      exact Or.inr (flatten_getLast_nl (hne ▸ List.cons_ne_nil f fs)
        (fun e he => (hln e (hne ▸ he)).1))
  have hlines : linesOf (mergedContent Z ents)
      = linesOf Z
        ++ (['\n'] :: (markerS ++ ['\n']) :: (ents ++ [markerE ++ ['\n']])) := by
    unfold mergedContent
    rw [appendedBlock_decomp, hens]
    rw [linesOf_append _ hZ]
    congr 1
    rw [linesOf_append _ (Or.inr (by decide))]
    rw [linesOf_append _ (Or.inr (by decide))]
    rw [linesOf_append _ hflat]
    rw [linesOf_flatten_singles hln]
    rw [show linesOf ['\n'] = [['\n']] from rfl]
    rw [linesOf_single (by decide : ∀ c ∈ markerS, c ≠ '\n')]
    rw [linesOf_single (by decide : ∀ c ∈ markerE, c ≠ '\n')]
    simp
  unfold extract_config_entries
  rw [hlines, goSt_append]
  have hc1 : (goSt false [] (linesOf Z)).2.1 = false := by rw [hclean]
  have hc2 : (goSt false [] (linesOf Z)).2.2 = [] := by rw [hclean]
  rw [hc1, hc2]
  show (goSt false [] (linesOf Z)).1
      ++ (goSt false []
        (['\n'] :: (markerS ++ ['\n']) :: (ents ++ [markerE ++ ['\n']]))).1
      = (goSt false [] (linesOf Z)).1 ++ ents
  congr 1
  rw [goSt_skip_cons (by decide) (by decide)]
  rw [goSt_skip_cons (by decide) (by decide)]
  rw [goSt_singles ents [markerE ++ ['\n']] hx]
  rw [show goSt false [] [markerE ++ ['\n']] = ([], false, []) from by decide]
  simp

/-- `merge_configs` on two existing files, not in dry-run mode, as a
single conditional. -/
theorem merge_configs_some_some (b z : List Char) :
    merge_configs (some b) (some z) false
      = (if find_new_entries (extract_config_entries b)
            (extract_config_entries z) = [] then
          some ⟨0, [], [], some z, false⟩
        else
          some ⟨(find_new_entries (extract_config_entries b)
              (extract_config_entries z)).length,
            find_new_entries (extract_config_entries b)
              (extract_config_entries z),
            (find_new_entries (extract_config_entries b)
              (extract_config_entries z)).map transform_to_zsh,
            some (mergedContent z
              ((find_new_entries (extract_config_entries b)
                (extract_config_entries z)).map transform_to_zsh)),
            true⟩) := by
  by_cases h : find_new_entries (extract_config_entries b)
      (extract_config_entries z) = []
  · simp [merge_configs, h]
  · simp [merge_configs, h]

/-- C1 counterexample: source `shopt -s histappend`, empty destination.
The first run appends the transformed entry `setopt append_history`,
whose normalized key differs from the source entry's key, so the second
run finds the same entry again (count 1, not 0) and appends it again —
the destination changes between the runs.  Running merge twice is
therefore not idempotent. -/
theorem c1_counterexample :
    ((merge_configs (some "shopt -s histappend\n".data) (some []) false).bind
      (fun o1 => (merge_configs (some "shopt -s histappend\n".data)
          o1.zshAfter false).map
        (fun o2 => (o2.count, decide (o2.zshAfter = o1.zshAfter)))))
      = some (1, false) := by
  decide

/-- C1 (amended): running merge twice is idempotent **provided** the
destination is empty or newline-terminated, its extraction ends in a
clean state (no pending block), and every new entry is a single
significant newline-terminated line, not a function opener, not a
backslash continuation, and left unchanged by the Transformer.  Without
the Transformer-identity proviso the second run can find entries again
(see the counterexample: a `shopt` line is re-added by every run,
because its transformed form has a different normalized key). -/
theorem c1_amended_idempotence (B Z : List Char)
    (hZ : Z = [] ∨ Z.getLast? = some '\n')
    (hclean : (goSt false [] (linesOf Z)).2 = (false, []))
    (hent : ∀ e ∈ find_new_entries (extract_config_entries B)
        (extract_config_entries Z),
      e.getLast? = some '\n' ∧ (∀ c ∈ e.dropLast, c ≠ '\n')
        ∧ transform_to_zsh e = e ∧ matchesOpener e = false
        ∧ is_significant_line e = true ∧ endsBS e = false) :
    ∀ out1, merge_configs (some B) (some Z) false = some out1 →
      ∃ out2, merge_configs (some B) out1.zshAfter false = some out2
        ∧ out2.count = 0 ∧ out2.zshAfter = out1.zshAfter
        ∧ out2.backupMade = false ∧ out2.originals = []
        ∧ out2.transformed = [] := by
  intro out1 hout1
  rw [merge_configs_some_some] at hout1
  set newE := find_new_entries (extract_config_entries B)
    (extract_config_entries Z) with hnewE
  by_cases hnew : newE = []
  · rw [if_pos hnew] at hout1
    have h1 := Option.some.inj hout1
    refine ⟨⟨0, [], [], some Z, false⟩, ?_, rfl, ?_, rfl, rfl, rfl⟩
    · rw [← h1]
      show merge_configs (some B) (some Z) false = _
      rw [merge_configs_some_some, ← hnewE, if_pos hnew]
    · rw [← h1]
  · rw [if_neg hnew] at hout1
    have h1 := Option.some.inj hout1
    have htz : newE.map transform_to_zsh = newE := by
      rw [show newE.map transform_to_zsh = newE.map id from
        List.map_congr_left (fun e he => (hent e he).2.2.1), List.map_id]
    have hens : newE.map ensureNL = newE := by
      rw [show newE.map ensureNL = newE.map id from
        List.map_congr_left (fun e he => by
          unfold ensureNL
          rw [if_pos (hent e he).1]
          rfl), List.map_id]
    have hext := extract_mergedContent Z newE hZ hclean
      (fun e he => ⟨(hent e he).1, (hent e he).2.1⟩)
      (fun e he => ⟨(hent e he).2.2.2.1, (hent e he).2.2.2.2.1,
        (hent e he).2.2.2.2.2⟩)
      hens
    have hkeys : find_new_entries (extract_config_entries B)
        (extract_config_entries Z ++ newE) = [] := by
      unfold find_new_entries
      rw [List.filter_eq_nil_iff]
      intro e he
      simp only [decide_eq_true_eq]
      rintro ⟨hkne, hnotin⟩
      apply hnotin
      rw [List.map_append]
      by_cases hmem : normalize_line e
          ∈ (extract_config_entries Z).map normalize_line
      · exact List.mem_append.mpr (Or.inl hmem)
      · have he2 : e ∈ newE := by
          rw [hnewE]
          unfold find_new_entries
          rw [List.mem_filter]
          refine ⟨he, ?_⟩
          simp only [decide_eq_true_eq]
          exact ⟨hkne, hmem⟩
        exact List.mem_append.mpr
          (Or.inr (List.mem_map_of_mem _ he2))
    refine ⟨⟨0, [], [], some (mergedContent Z newE), false⟩, ?_, rfl, ?_,
      rfl, rfl, rfl⟩
    · have hzA : out1.zshAfter = some (mergedContent Z newE) := by
        rw [← h1]
        show some (mergedContent Z (newE.map transform_to_zsh)) = _
        rw [htz]
      rw [hzA, merge_configs_some_some]
      rw [hext]
      rw [if_pos hkeys]
    · have hzA : out1.zshAfter = some (mergedContent Z newE) := by
        rw [← h1]
        show some (mergedContent Z (newE.map transform_to_zsh)) = _
        rw [htz]
      rw [hzA]

/-- Witness for `c1_amended_idempotence`: one plain `export` line into
an empty destination; the second run finds nothing new. -/
theorem c1_witness :
    (([] : List Char) = [] ∨ ([] : List Char).getLast? = some '\n')
    ∧ (goSt false [] (linesOf [])).2 = (false, [])
    ∧ (∃ out2,
        merge_configs (some "export EDITOR=vim\n".data)
            (⟨1, ["export EDITOR=vim\n".data], ["export EDITOR=vim\n".data],
              some (mergedContent [] ["export EDITOR=vim\n".data]),
              true⟩ : MergeOut).zshAfter false
          = some out2
        ∧ out2.count = 0
        ∧ out2.zshAfter
            = (⟨1, ["export EDITOR=vim\n".data],
                ["export EDITOR=vim\n".data],
                some (mergedContent [] ["export EDITOR=vim\n".data]),
                true⟩ : MergeOut).zshAfter
        ∧ out2.backupMade = false ∧ out2.originals = []
        ∧ out2.transformed = []) :=
  ⟨Or.inl rfl, rfl,
    c1_amended_idempotence "export EDITOR=vim\n".data [] (Or.inl rfl) rfl
      (by decide)
      ⟨1, ["export EDITOR=vim\n".data], ["export EDITOR=vim\n".data],
        some (mergedContent [] ["export EDITOR=vim\n".data]), true⟩
      (by decide)⟩

/-! ### Claim C2 -/

theorem normalize_line_no_hash {e : List Char} (h : '#' ∉ e) :
    normalize_line e = stripL e := by
  unfold normalize_line
  rw [if_neg]
  exact fun hc => h (mem_of_mem_stripL hc.1)

/-- C2 counterexample: two multi-line function entries share the same
first line `f() {` but have different bodies; the claim says their
normalized keys are equal (first-line-only keying), yet
`normalize_line` strips the **whole** entry text, so the keys differ. -/
theorem c2_counterexample :
    normalize_line "f() \x7b\n  echo a\n\x7d\n".data
      ≠ normalize_line "f() \x7b\n  echo b\n\x7d\n".data := by
  decide

/-- C2 (amended): the NormalizedKey is computed from the entry's
**entire** text, not its first line only: the text is stripped of
surrounding whitespace and, when it contains a `#` and does not start
with one, truncated before the first `#` and re-stripped.  Hence a
`#`-free entry's key is its whole stripped text, and two `#`-free
multi-line entries with the same first line but different stripped
bodies get different keys. -/
theorem c2_amended_key_is_whole_text (e l b1 b2 : List Char) :
    ('#' ∉ e → normalize_line e = stripL e)
    ∧ ('#' ∉ l → '#' ∉ b1 → '#' ∉ b2 →
        stripL (l ++ '\n' :: b1) ≠ stripL (l ++ '\n' :: b2) →
        normalize_line (l ++ '\n' :: b1) ≠ normalize_line (l ++ '\n' :: b2)) := by
  refine ⟨fun h => normalize_line_no_hash h, ?_⟩
  intro hl h1 h2 hne
  have m : ∀ (b : List Char), '#' ∉ b → '#' ∉ l ++ '\n' :: b := by
    intro b hb hmem
    rcases List.mem_append.mp hmem with h | h
    · exact hl h
    · rcases List.mem_cons.mp h with h | h
      · exact absurd h (by decide)
      · exact hb h
  rw [normalize_line_no_hash (m b1 h1), normalize_line_no_hash (m b2 h2)]
  exact hne

/-- Witness for `c2_amended_key_is_whole_text` on two concrete
function bodies sharing the first line. -/
theorem c2_witness :
    ('#' ∉ ("f() \x7b".data : List Char))
    ∧ stripL ("f() \x7b".data ++ '\n' :: "a\n\x7d".data)
        ≠ stripL ("f() \x7b".data ++ '\n' :: "b\n\x7d".data)
    ∧ normalize_line ("f() \x7b".data ++ '\n' :: "a\n\x7d".data)
        ≠ normalize_line ("f() \x7b".data ++ '\n' :: "b\n\x7d".data) :=
  ⟨by decide, by decide,
    (c2_amended_key_is_whole_text "x".data "f() \x7b".data "a\n\x7d".data
      "b\n\x7d".data).2 (by decide) (by decide) (by decide) (by decide)⟩

/-! ### Claim C3 -/

/-- C3: evaluation of the Transformer at the failing input.  The braced
form `${BASH_VERSION}` is rewritten to the braced reference
`${ZSH_VERSION}`, but the bare form `$BASH_VERSION` is replaced by the
bare *name* `ZSH_VERSION` — the regex consumes the `$` and the
replacement text does not restore it, so the result is a literal word
that no longer dereferences any variable (the claim, and the intent
visible in the braced branch, require `$ZSH_VERSION`).  The same
happens for `BASH_REMATCH` → `match`. -/
theorem c3_bare_substitution_drops_dollar :
    transform_to_zsh "echo $BASH_VERSION".data = "echo ZSH_VERSION".data
    ∧ transform_to_zsh "echo $\x7bBASH_VERSION\x7d".data
        = "echo $\x7bZSH_VERSION\x7d".data
    ∧ transform_to_zsh "m=$BASH_REMATCH".data = "m=match".data
    ∧ "echo ZSH_VERSION".data ≠ "echo $ZSH_VERSION".data := by
  refine ⟨by decide, by decide, by decide, by decide⟩

/-! ### Claim C6 -/

/-- C6: `merge_configs` fails with the missing-source error exactly when
the source file is absent (nothing else is touched then), and whenever
it runs on an existing destination and finds zero new entries it
returns count 0 with empty entry lists, writes nothing, creates no
backup, and leaves the destination content unchanged. -/
theorem c6_missing_source_and_zero_entry_noop
    (zsh : Option (List Char)) (dry : Bool) (b z : List Char) :
    merge_configs none zsh dry = none
    ∧ (merge_configs (some b) zsh dry).isSome = true
    ∧ (∀ out, merge_configs (some b) (some z) dry = some out →
        out.count = 0 →
        out.originals = [] ∧ out.transformed = [] ∧ out.zshAfter = some z
          ∧ out.backupMade = false) := by
  refine ⟨rfl, ?_, ?_⟩
  · simp only [merge_configs]
    split
    · simp
    · split <;> simp
  · intro out hout hcount
    by_cases hne : find_new_entries (extract_config_entries b)
        (extract_config_entries z) = []
    · simp only [merge_configs, Option.getD_some] at hout
      rw [if_pos hne] at hout
      simp only [reduceCtorEq, false_and, if_false, Option.some.injEq] at hout
      rw [← hout]
      simp
    · exfalso
      simp only [merge_configs, Option.getD_some] at hout
      rw [if_neg hne] at hout
      have hlen : out.count = (find_new_entries (extract_config_entries b)
          (extract_config_entries z)).length := by
        split at hout
        · rw [← Option.some.inj hout]
        · rw [← Option.some.inj hout]
      rw [hcount] at hlen
      exact hne (List.length_eq_zero.mp hlen.symm)

/-- Witness for `c6_missing_source_and_zero_entry_noop`: the spec's
end-to-end zero-entry scenario, source and destination holding the same
two lines. -/
theorem c6_witness :
    merge_configs (some "export EDITOR=vim\nexport V=1\n".data)
        (some "export EDITOR=vim\nexport V=1\n".data) false
      = some ⟨0, [], [], some "export EDITOR=vim\nexport V=1\n".data, false⟩
    ∧ (⟨0, [], [], some "export EDITOR=vim\nexport V=1\n".data,
        false⟩ : MergeOut).zshAfter
        = some "export EDITOR=vim\nexport V=1\n".data
    ∧ (⟨0, [], [], some "export EDITOR=vim\nexport V=1\n".data,
        false⟩ : MergeOut).backupMade = false :=
  ⟨by decide,
    ((c6_missing_source_and_zero_entry_noop
        (some "export EDITOR=vim\nexport V=1\n".data) false
        "export EDITOR=vim\nexport V=1\n".data
        "export EDITOR=vim\nexport V=1\n".data).2.2
      ⟨0, [], [], some "export EDITOR=vim\nexport V=1\n".data, false⟩
      (by decide) rfl).2.2⟩

end MergeScript
